import Mathlib

/-!
# Verification of the PBG (Prefix Boolean Grammar) evaluator

Shallow embedding of `src/pbg.c` (tylerdaddio/pbg).  Byte strings are
`List Nat` (byte values), machine `int` is `Int`, `double` payloads are the
8 raw little-endian bytes of an IEEE-754 binary64.  Fallible or undefined
behaviour (out-of-range reads, NULL dereference, reads of uninitialized
memory) is modelled by `Option`, with `none` for undefined behaviour.

The node-type enumeration and the `pbg_expr` / `pbg_expr_node` structures
are declared in `pbg.h`, which is not part of `src/`.  They are modelled
from the spec (§3): node kinds split into a literal family
(TRUE, FALSE, NUMBER, STRING, DATE, KEY, UNKNOWN) and an operator family
(NOT, AND, OR, EQ, NEQ, LT, LTE, GT, GTE, EXST); the C comparisons
`_type < PBG_MAX_LT` / `_type < PBG_MAX_OP` become membership in those
families.  A node carries a type tag, an `int` field (payload byte length
for literals, child count for operators) and an untyped payload pointer,
modelled by the `pbg_data` sum.
-/

set_option linter.unusedVariables false

/-- Bytes of a Lean string literal (all inputs in scope are ASCII). -/
def strBytes (s : String) : List Nat := s.toList.map Char.toNat

/-- Read a byte at a non-negative index; `none` models an out-of-range read. -/
def readN (buf : List Nat) (idx : Nat) : Option Nat := buf.get? idx

/-- Read a byte at a possibly negative index (C pointer arithmetic). -/
def readI (buf : List Nat) (idx : Int) : Option Nat :=
  if idx < 0 then none else buf.get? idx.toNat

/-- `is_a_digit` from pbg.c: `c >= '0' && c <= '9'`. -/
def is_a_digit (c : Nat) : Bool := 48 ≤ c && c ≤ 57

/-- Modelled from the spec: the node-type enumeration of `pbg.h` (not in
`src/`), following spec §3's two disjoint families. -/
inductive pbg_node_type where
  | PBG_LT_TRUE
  | PBG_LT_FALSE
  | PBG_LT_NUMBER
  | PBG_LT_STRING
  | PBG_LT_DATE
  | PBG_LT_KEY
  | PBG_UNKNOWN
  | PBG_OP_NOT
  | PBG_OP_AND
  | PBG_OP_OR
  | PBG_OP_EQ
  | PBG_OP_NEQ
  | PBG_OP_LT
  | PBG_OP_GT
  | PBG_OP_LTE
  | PBG_OP_GTE
  | PBG_OP_EXST
deriving DecidableEq, Repr

/-- `_type < PBG_MAX_LT`: the literal family (spec §3, including the
UNKNOWN sentinel). -/
def isLT : pbg_node_type → Bool
  | .PBG_LT_TRUE | .PBG_LT_FALSE | .PBG_LT_NUMBER | .PBG_LT_STRING
  | .PBG_LT_DATE | .PBG_LT_KEY | .PBG_UNKNOWN => true
  | _ => false

/-- `PBG_MAX_LT <= _type < PBG_MAX_OP`: the operator family (spec §3). -/
def isOP : pbg_node_type → Bool
  | .PBG_OP_NOT | .PBG_OP_AND | .PBG_OP_OR | .PBG_OP_EQ | .PBG_OP_NEQ
  | .PBG_OP_LT | .PBG_OP_GT | .PBG_OP_LTE | .PBG_OP_GTE | .PBG_OP_EXST => true
  | _ => false

/-- The untyped `void* _data` payload of a node.  `bytes` is a malloc'd
byte buffer (STRING/KEY payload bytes, or the 8 bytes of a NUMBER's
double); `date` is the `pbg_type_date` struct (three C ints); `children`
is an operator's malloc'd `int` array of child indices; `null` is the
NULL pointer (TRUE/FALSE/UNKNOWN). -/
inductive pbg_data where
  | null : pbg_data
  | bytes : List Nat → pbg_data
  | date : Int → Int → Int → pbg_data
  | children : List Int → pbg_data
deriving DecidableEq, Repr

structure pbg_expr_node where
  _type : pbg_node_type
  _int : Int
  _data : pbg_data
deriving DecidableEq, Repr

structure pbg_expr where
  _static : List pbg_expr_node
  _dynamic : List pbg_expr_node
deriving DecidableEq, Repr

/-- `get_expr_node` from pbg.c: negative indices −1,−2,… address the
dynamic arena at 0,1,…; non-negative indices address the static arena.
The C function only forms a pointer; the dereference happens at the use
site, so callers treat the `none` case (a dangling pointer) as undefined
behaviour only when they actually read through it. -/
def get_expr_node (e : pbg_expr) (index : Int) : Option pbg_expr_node :=
  if index < 0 then e._dynamic.get? (-(index + 1)).toNat
  else e._static.get? index.toNat

/-! ## Lexical recognizers (pbg.c lines 609–729)

Each recognizer receives the whole input buffer plus the field's offset
and length, exactly as the C code receives `str + fields[i]` and
`lengths[i]`: a read past the field's end still lands in the buffer when
bytes follow the field, and is out of range (`none`) otherwise. -/

/-- `pbg_toop`: returns an operator kind or PBG_UNKNOWN. -/
def pbg_toop (buf : List Nat) (off n : Nat) : Option pbg_node_type :=
  if n = 1 then do
    let c0 ← readN buf off
    pure (if c0 = 33 then .PBG_OP_NOT
      else if c0 = 38 then .PBG_OP_AND
      else if c0 = 124 then .PBG_OP_OR
      else if c0 = 61 then .PBG_OP_EQ
      else if c0 = 60 then .PBG_OP_LT
      else if c0 = 62 then .PBG_OP_GT
      else if c0 = 63 then .PBG_OP_EXST
      else .PBG_UNKNOWN)
  else if n = 2 then do
    let c0 ← readN buf off
    let c1 ← readN buf (off + 1)
    pure (if c0 = 33 ∧ c1 = 61 then .PBG_OP_NEQ
      else if c0 = 60 ∧ c1 = 61 then .PBG_OP_LTE
      else if c0 = 62 ∧ c1 = 61 then .PBG_OP_GTE
      else .PBG_UNKNOWN)
  else pure .PBG_UNKNOWN

/-- `pbg_istrue`: exact match `TRUE` (length check first, so no read is
performed unless `n == 4`). -/
def pbg_istrue (buf : List Nat) (off n : Nat) : Option Bool :=
  if n = 4 then do
    let c0 ← readN buf off
    let c1 ← readN buf (off + 1)
    let c2 ← readN buf (off + 2)
    let c3 ← readN buf (off + 3)
    pure (c0 = 84 ∧ c1 = 82 ∧ c2 = 85 ∧ c3 = 69)
  else pure false

/-- `pbg_isfalse`: exact match `FALSE`. -/
def pbg_isfalse (buf : List Nat) (off n : Nat) : Option Bool :=
  if n = 5 then do
    let c0 ← readN buf off
    let c1 ← readN buf (off + 1)
    let c2 ← readN buf (off + 2)
    let c3 ← readN buf (off + 3)
    let c4 ← readN buf (off + 4)
    pure (c0 = 70 ∧ c1 = 65 ∧ c2 = 76 ∧ c3 = 83 ∧ c4 = 69)
  else pure false

/-- `pbg_iskey`: `str[0] == '[' && str[n-1] == ']'` — the second read is
short-circuited away when the first byte is not `[`.  Note the absence of
any length check in the C code. -/
def pbg_iskey (buf : List Nat) (off n : Nat) : Option Bool := do
  let c0 ← readN buf off
  if c0 = 91 then do
    let c1 ← readI buf ((off : Int) + (n : Int) - 1)
    pure (c1 = 93)
  else pure false

/-- `pbg_isstring`: `str[0] == '\'' && str[n-1] == '\''` — again no
length check in the C code. -/
def pbg_isstring (buf : List Nat) (off n : Nat) : Option Bool := do
  let c0 ← readN buf off
  if c0 = 39 then do
    let c1 ← readI buf ((off : Int) + (n : Int) - 1)
    pure (c1 = 39)
  else pure false

/-- `pbg_isdate`: exactly 10 bytes, `DDDD-DD-DD`. -/
def pbg_isdate (buf : List Nat) (off n : Nat) : Option Bool :=
  if n = 10 then do
    let c0 ← readN buf off
    let c1 ← readN buf (off + 1)
    let c2 ← readN buf (off + 2)
    let c3 ← readN buf (off + 3)
    let c4 ← readN buf (off + 4)
    let c5 ← readN buf (off + 5)
    let c6 ← readN buf (off + 6)
    let c7 ← readN buf (off + 7)
    let c8 ← readN buf (off + 8)
    let c9 ← readN buf (off + 9)
    pure (is_a_digit c0 ∧ is_a_digit c1 ∧ is_a_digit c2 ∧ is_a_digit c3 ∧
      c4 = 45 ∧ is_a_digit c5 ∧ is_a_digit c6 ∧ c7 = 45 ∧
      is_a_digit c8 ∧ is_a_digit c9)
  else pure false

/-- The digit-consuming loops of `pbg_isnumber`:
`while(i != n && is_a_digit(str[i])) i++;`.  The loop guard compares `i`
with `n` for equality, so when `i` has already run past `n` the loop keeps
going; reads are bounds-checked against the whole buffer.  The fuel is
always called with `buf.length + 2`, which the loop cannot exhaust before
either reaching `n` or stepping out of the buffer. -/
def skip_digits (buf : List Nat) (off n : Nat) : Nat → Nat → Option Nat
  | 0, _ => none
  | fuel + 1, i =>
    if i = n then some i
    else
      match readN buf (off + i) with
      | none => none
      | some c => if is_a_digit c then skip_digits buf off n fuel (i + 1) else some i

/-- Exponent block of `pbg_isnumber` (pbg.c lines 676–685).  The entry
read `str[i]` is not guarded by `i != n`. -/
def pbg_isnumber_exp (buf : List Nat) (off n i : Nat) : Option Bool := do
  let c ← readN buf (off + i)
  if c = 101 ∨ c = 69 then
    if i + 1 = n then pure false
    else do
      let cs ← readN buf (off + i + 1)
      let i2 := if cs = 45 ∨ cs = 43 then i + 2 else i + 1
      let j ← skip_digits buf off n (buf.length + 2) i2
      if j ≠ n then do
        let ce ← readN buf (off + j)
        pure (is_a_digit ce)
      else pure true
  else pure true

/-- Fractional block of `pbg_isnumber` (pbg.c lines 667–674), falling
through to the exponent block.  The entry read `str[i]` is not guarded. -/
def pbg_isnumber_dot (buf : List Nat) (off n i : Nat) : Option Bool := do
  let c ← readN buf (off + i)
  if c = 46 then
    if i + 1 = n then pure false
    else do
      let j ← skip_digits buf off n (buf.length + 2) (i + 1)
      if j ≠ n then do
        let ce ← readN buf (off + j)
        if ¬ is_a_digit ce ∧ ce ≠ 101 ∧ ce ≠ 69 then pure false
        else pbg_isnumber_exp buf off n j
      else pbg_isnumber_exp buf off n j
  else pbg_isnumber_exp buf off n i

/-- Integer-part block of `pbg_isnumber` (pbg.c lines 659–665), falling
through to the fractional block.  The entry read `str[i]` is not guarded
(`i` may equal `n` when a sign was consumed). -/
def pbg_isnumber_int (buf : List Nat) (off n i : Nat) : Option Bool := do
  let bA ← readN buf (off + i)
  if bA ≠ 48 ∧ is_a_digit bA then do
    let j ← skip_digits buf off n (buf.length + 2) i
    if j ≠ n then do
      let c ← readN buf (off + j)
      if ¬ is_a_digit c ∧ c ≠ 46 then pure false
      else pbg_isnumber_dot buf off n j
    else pbg_isnumber_dot buf off n j
  else if bA = 48 then
    if i + 1 ≠ n then do
      let c ← readN buf (off + i + 1)
      if ¬ (c = 46 ∨ c = 101 ∨ c = 69) then pure false
      else pbg_isnumber_dot buf off n (i + 1)
    else pbg_isnumber_dot buf off n (i + 1)
  else pbg_isnumber_dot buf off n i

/-- `pbg_isnumber` (pbg.c lines 649–689).  `str[0]` is read
unconditionally; the rest is the integer/fraction/exponent chain. -/
def pbg_isnumber (buf : List Nat) (off n : Nat) : Option Bool := do
  let b0 ← readN buf off
  if b0 = 45 ∨ b0 = 43 then pbg_isnumber_int buf off n 1
  else if ¬ is_a_digit b0 then pure false
  else pbg_isnumber_int buf off n 0

/-- `pbg_todate`: digit extraction into the `pbg_type_date` struct.
Only called after `pbg_isdate` holds, so all ten reads are in range. -/
def pbg_todate (buf : List Nat) (off : Nat) : Option pbg_data := do
  let c0 ← readN buf off
  let c1 ← readN buf (off + 1)
  let c2 ← readN buf (off + 2)
  let c3 ← readN buf (off + 3)
  let c5 ← readN buf (off + 5)
  let c6 ← readN buf (off + 6)
  let c8 ← readN buf (off + 8)
  let c9 ← readN buf (off + 9)
  pure (pbg_data.date
    (((c0 : Int) - 48) * 1000 + ((c1 : Int) - 48) * 100 + ((c2 : Int) - 48) * 10 + ((c3 : Int) - 48))
    (((c5 : Int) - 48) * 10 + ((c6 : Int) - 48))
    (((c8 : Int) - 48) * 10 + ((c9 : Int) - 48)))

/-! ## The platform double (IEEE-754 binary64, little-endian)

The evaluator reinterprets payload pointers as `double*` and compares with
the C operators `<`, `<=`, `>`, `>=`.  We model the 8 payload bytes as the
little-endian encoding of a binary64 word.  For comparisons only the
following exact facts about IEEE-754 are used: every comparison involving
a NaN is false; −0 equals +0; otherwise the sign-magnitude integer rank
below is strictly monotone in the represented value. -/

/-- Little-endian unsigned value of a byte list. -/
def leU64 (bs : List Nat) : Nat := bs.foldr (fun b acc => b % 256 + 256 * acc) 0

/-- Little-endian bytes of a value, `k` bytes wide. -/
def leBytes : Nat → Nat → List Nat
  | 0, _ => []
  | k + 1, v => v % 256 :: leBytes k (v / 256)

def dbl_sign (u : Nat) : Nat := u / 2 ^ 63
def dbl_mag (u : Nat) : Nat := u % 2 ^ 63
def dbl_isnan (u : Nat) : Bool := dbl_mag u / 2 ^ 52 = 2047 && u % 2 ^ 52 ≠ 0

/-- Sign-magnitude rank: strictly monotone in the represented value over
the non-NaN binary64 words (subnormals, zeros and infinities included);
the two zeros share rank 0. -/
def dbl_rank (u : Nat) : Int :=
  if dbl_sign u % 2 = 1 then -(dbl_mag u : Int) else (dbl_mag u : Int)

/-- C `a < b` on two binary64 words. -/
def dbl_lt (a b : Nat) : Bool :=
  ¬ dbl_isnan a && ¬ dbl_isnan b && dbl_rank a < dbl_rank b

/-- C `a <= b` on two binary64 words. -/
def dbl_le (a b : Nat) : Bool :=
  ¬ dbl_isnan a && ¬ dbl_isnan b && dbl_rank a ≤ dbl_rank b

/-- The 4 little-endian bytes of a C `int` (two's complement). -/
def intBytesLE4 (x : Int) : List Nat := leBytes 4 (x % 4294967296).toNat

/-- The bytes seen when `_data` is read through a `char*`: a byte buffer
is itself; the `pbg_type_date` struct is its three packed 4-byte ints
(no padding); an `int` child array is its packed 4-byte ints; the NULL
pointer has no readable bytes. -/
def pbg_data_bytes : pbg_data → Option (List Nat)
  | .null => none
  | .bytes bs => some bs
  | .date y m d => some (intBytesLE4 y ++ intBytesLE4 m ++ intBytesLE4 d)
  | .children cs => some ((cs.map intBytesLE4).flatten)

/-- The byte-comparison loop inside EQ (pbg.c lines 355–359): compare the
first `k` bytes of the two payloads; `none` when a compared byte is past
a payload's end (heap over-read) or a payload is NULL with `k > 0`. -/
def pbg_eq_bytes (a b : pbg_data) (k : Int) : Option Bool :=
  if k ≤ 0 then some true
  else do
    let ba ← pbg_data_bytes a
    let bb ← pbg_data_bytes b
    if k.toNat ≤ ba.length ∧ k.toNat ≤ bb.length then
      some (decide (ba.take k.toNat = bb.take k.toNat))
    else none

/-- `strncmp(a, b, k) != 0`: byte-wise comparison that stops at the first
differing byte, at the first NUL byte, or after `k` bytes; `none` when the
walk reads past a buffer's end. -/
def strncmp_ne : List Nat → List Nat → Nat → Option Bool
  | _, _, 0 => some false
  | [], _, _ + 1 => none
  | _ :: _, [], _ + 1 => none
  | x :: xs, y :: ys, k + 1 =>
    if x ≠ y then some true
    else if x = 0 then some false
    else strncmp_ne xs ys k

/-- The `strncmp(child1->_data, child0->_data, child0->_int)` call of NEQ
(pbg.c line 381).  `k = 0` compares nothing; a negative `k` converts to a
huge `size_t`, modelled by a count large enough that the walk must stop at
a difference, a NUL, or a heap over-read. -/
def pbg_strncmp_ne (a b : pbg_data) (k : Int) : Option Bool :=
  if k = 0 then some false
  else do
    let ba ← pbg_data_bytes a
    let bb ← pbg_data_bytes b
    strncmp_ne ba bb (if k < 0 then ba.length + bb.length + 1 else k.toNat)

/-- `*((double*)d)`: read 8 bytes of the payload as a binary64 word;
`none` when fewer than 8 bytes are addressable (includes NULL). -/
def pbg_read_double (d : pbg_data) : Option Nat := do
  let bs ← pbg_data_bytes d
  if 8 ≤ bs.length then some (leU64 (bs.take 8)) else none

/-! ## The recursive evaluator `pbg_evaluate_r` (pbg.c lines 313–397)

The C recursion is modelled with a fuel parameter (the C stack);
`none` covers fuel exhaustion and undefined behaviour.  Loops walk the
child-index array with an index bounded by `node->_int` exactly as the C
`for` loops do, so an early `return` happens before any later
out-of-bounds read, and `children[0]` is read (not dereferenced) before
the `switch`. -/

/-- The AND loop: `if(eval == 0) return 0;` then fall through to 1. -/
def pbg_and_loop (ev : pbg_expr_node → Option Int) (e : pbg_expr)
    (cs : List Int) : Nat → Nat → Option Int
  | _, 0 => some 1
  | i, rem + 1 => do
    let c ← cs.get? i
    let nd ← get_expr_node e c
    let r ← ev nd
    if r = 0 then some 0 else pbg_and_loop ev e cs (i + 1) rem

/-- The OR loop: `if(eval == 1) return 1;` then fall through to 0. -/
def pbg_or_loop (ev : pbg_expr_node → Option Int) (e : pbg_expr)
    (cs : List Int) : Nat → Nat → Option Int
  | _, 0 => some 0
  | i, rem + 1 => do
    let c ← cs.get? i
    let nd ← get_expr_node e c
    let r ← ev nd
    if r = 1 then some 1 else pbg_or_loop ev e cs (i + 1) rem

/-- The EQ loop over children 1..size−1 (pbg.c lines 350–359). -/
def pbg_eq_loop (e : pbg_expr) (child0o : Option pbg_expr_node)
    (cs : List Int) : Nat → Nat → Option Int
  | _, 0 => some 1
  | i, rem + 1 => do
    let c ← cs.get? i
    let childi ← get_expr_node e c
    let child0 ← child0o
    if childi._int ≠ child0._int ∨ childi._type ≠ child0._type then some 0
    else do
      let b ← pbg_eq_bytes child0._data childi._data child0._int
      if b then pbg_eq_loop e child0o cs (i + 1) rem else some 0

/-- One step of `pbg_evaluate_r`, parameterized by the recursive call. -/
def pbg_eval_step (e : pbg_expr) (ev : pbg_expr_node → Option Int)
    (node : pbg_expr_node) : Option Int :=
  if isLT node._type then
    if node._type = .PBG_LT_TRUE then some 1
    else if node._type = .PBG_LT_FALSE then some 0
    else some 0
  else if isOP node._type then
    match node._data with
    | .children cs =>
      match cs with
      | [] => none
      | c0 :: _ =>
        let child0o := get_expr_node e c0
        match node._type with
        | .PBG_OP_NOT => do
          let child0 ← child0o
          let r ← ev child0
          some (if r = 0 then 1 else 0)
        | .PBG_OP_AND => pbg_and_loop ev e cs 0 node._int.toNat
        | .PBG_OP_OR => pbg_or_loop ev e cs 0 node._int.toNat
        | .PBG_OP_EQ => pbg_eq_loop e child0o cs 1 (node._int - 1).toNat
        | .PBG_OP_LT => do
          let c1 ← cs.get? 1
          let child1 ← get_expr_node e c1
          let child0 ← child0o
          let a ← pbg_read_double child0._data
          let b ← pbg_read_double child1._data
          some (if dbl_lt a b then 1 else 0)
        | .PBG_OP_GT => do
          let c1 ← cs.get? 1
          let child1 ← get_expr_node e c1
          let child0 ← child0o
          let a ← pbg_read_double child0._data
          let b ← pbg_read_double child1._data
          some (if dbl_lt b a then 1 else 0)
        | .PBG_OP_EXST => do
          let child0 ← child0o
          some (if child0._type ≠ .PBG_UNKNOWN then 1 else 0)
        | .PBG_OP_NEQ => do
          let c1 ← cs.get? 1
          let child1 ← get_expr_node e c1
          let child0 ← child0o
          if child1._type ≠ child0._type ∨ child1._int ≠ child0._int then some 1
          else do
            let ne ← pbg_strncmp_ne child1._data child0._data child0._int
            some (if ne then 1 else 0)
        | .PBG_OP_LTE => do
          let c1 ← cs.get? 1
          let child1 ← get_expr_node e c1
          let child0 ← child0o
          let a ← pbg_read_double child0._data
          let b ← pbg_read_double child1._data
          some (if dbl_le a b then 1 else 0)
        | .PBG_OP_GTE => do
          let c1 ← cs.get? 1
          let child1 ← get_expr_node e c1
          let child0 ← child0o
          let a ← pbg_read_double child0._data
          let b ← pbg_read_double child1._data
          some (if dbl_le b a then 1 else 0)
        | _ => none
    | _ => none
  else none

/-- `pbg_evaluate_r` with fuel for the C call stack. -/
def pbg_evaluate_r (e : pbg_expr) : Nat → pbg_expr_node → Option Int
  | 0, _ => none
  | fuel + 1, node => pbg_eval_step e (fun nd => pbg_evaluate_r e fuel nd) node

/-- Evaluation of the node referenced by child index `c`: the pointer from
`get_expr_node` is dereferenced inside the recursive call. -/
def evalChild (e : pbg_expr) (fuel : Nat) (c : Int) : Option Int := do
  let nd ← get_expr_node e c
  pbg_evaluate_r e fuel nd

-- quick sanity checks (temporary)
example : pbg_evaluate_r { _static := [⟨.PBG_LT_TRUE, 0, .null⟩], _dynamic := [] } 1
    ⟨.PBG_LT_TRUE, 0, .null⟩ = some 1 := by decide
example : pbg_evaluate_r
    { _static := [⟨.PBG_OP_AND, 2, .children [1, 2]⟩, ⟨.PBG_LT_TRUE, 0, .null⟩,
        ⟨.PBG_LT_FALSE, 0, .null⟩], _dynamic := [] } 2
    ⟨.PBG_OP_AND, 2, .children [1, 2]⟩ = some 0 := by decide
example : pbg_isnumber (strBytes "0,") 0 1 = some true := by decide
example : pbg_isnumber (strBytes "0.x") 0 1 = some false := by decide
example : pbg_isnumber (strBytes "0") 0 1 = none := by decide
example : pbg_isnumber (strBytes "12.50,TRUE") 0 5 = some true := by decide
example : pbg_isstring (strBytes "'") 0 1 = some true := by decide

/-! ## `pbg_evaluate` (pbg.c lines 399–429)

The dictionary callback may have effects, so it is modelled with explicit
state passing: `dict s name_bytes name_len = (node, s')`.  Key resolution
(step 2 of spec §4.3) is the loop below; the walk then runs on the
swapped expression and never touches the dictionary. -/

/-- The key-resolution loop: `dynamics[i] = dict(keylt->_data, keylt->_int)`
for every `i < e->_dynamicsz`, in order.  Passing a non-buffer payload
pointer to the callback is modelled as undefined behaviour. -/
def pbg_resolve_loop {σ : Type} (dict : σ → List Nat → Int → pbg_expr_node × σ) :
    List pbg_expr_node → σ → Option (List pbg_expr_node × σ)
  | [], s => some ([], s)
  | k :: rest, s => do
    let kb ← pbg_data_bytes k._data
    let p := dict s kb k._int
    let q ← pbg_resolve_loop dict rest p.2
    some (p.1 :: q.1, q.2)

/-- `pbg_evaluate`: resolve every key eagerly, swap the dynamic arena,
walk from `e->_static` (the node at static index 0), restore, free. -/
def pbg_evaluate {σ : Type} (e : pbg_expr)
    (dict : σ → List Nat → Int → pbg_expr_node × σ) (s0 : σ) (fuel : Nat) :
    Option (Int × σ) := do
  let q ← pbg_resolve_loop dict e._dynamic s0
  let e2 : pbg_expr := { _static := e._static, _dynamic := q.1 }
  let root ← e2._static.get? 0
  let r ← pbg_evaluate_r e2 fuel root
  some (r, q.2)

/-! ## `atof` (libc)

Modelled from the spec: `atof`/`strtod` is C standard library code, not in
`src/`.  Per the C standard and glibc it parses the longest
decimal-number prefix (optional whitespace and sign, digits, optional
fraction, optional exponent; no conversion yields 0.0) and converts it to
the nearest `double`, ties to even, overflowing to infinity.  The result
is returned as the 8 little-endian bytes of the binary64 word. -/

/-- Consume a run of decimal digits, returning their values and the rest. -/
def digitRun : List Nat → List Nat × List Nat
  | [] => ([], [])
  | c :: rest =>
    if is_a_digit c then
      let p := digitRun rest
      ((c - 48) :: p.1, p.2)
    else ([], c :: rest)

def natOfDigits (ds : List Nat) : Nat := ds.foldl (fun a d => a * 10 + d) 0

/-- Structurally fueled base-2 logarithm (`Nat.log2` is defined by
well-founded recursion, which the kernel does not unfold). -/
def natLog2Aux : Nat → Nat → Nat
  | 0, _ => 0
  | f + 1, n => if 2 ^ 64 ≤ n then natLog2Aux f (n / 2 ^ 64) + 64
    else if 2 ^ 8 ≤ n then natLog2Aux f (n / 2 ^ 8) + 8
    else if 2 ≤ n then natLog2Aux f (n / 2) + 1
    else 0

def natLog2 (n : Nat) : Nat := natLog2Aux n n

/-- Round-to-nearest-even of `(p/q) / 2^e` to an integer. -/
def roundAt (p q : Nat) (e : Int) : Nat :=
  let N := if 0 ≤ e then p else p * 2 ^ (-e).toNat
  let D := if 0 ≤ e then q * 2 ^ e.toNat else q
  N / D + (if D < 2 * (N % D) ∨ (2 * (N % D) = D ∧ (N / D) % 2 = 1) then 1 else 0)

/-- Find `(m, e)` with `m = roundAt p q e ∈ [2^52, 2^53)`; the starting
guess is within 2 of the answer, so the fuel of 8 is never exhausted for
positive `p/q`. -/
def normalizeBin (p q : Nat) : Nat → Int → Nat × Int
  | 0, e => (roundAt p q e, e)
  | f + 1, e =>
    let m := roundAt p q e
    if 2 ^ 53 ≤ m then normalizeBin p q f (e + 1)
    else if m < 2 ^ 52 then normalizeBin p q f (e - 1)
    else (m, e)

/-- Nearest binary64 word for `±m10 · 10^e10` (ties to even, overflow to
infinity, gradual underflow), as 8 little-endian bytes. -/
def encodeDouble (neg : Bool) (m10 : Nat) (e10 : Int) : List Nat :=
  if m10 = 0 then leBytes 8 (if neg then 2 ^ 63 else 0)
  else
    let p := if 0 ≤ e10 then m10 * 10 ^ e10.toNat else m10
    let q := if 0 ≤ e10 then 1 else 10 ^ (-e10).toNat
    let ecand : Int := (natLog2 p : Int) - (natLog2 q : Int) - 52
    let me := normalizeBin p q 8 ecand
    let me2 := if me.2 < -1074 then (roundAt p q (-1074), (-1074 : Int)) else me
    let u :=
      if me2.1 = 0 then 0
      else if me2.1 < 2 ^ 52 then me2.1
      else
        let E : Int := me2.2 + 1075
        if 2047 ≤ E then 2047 * 2 ^ 52
        else E.toNat * 2 ^ 52 + (me2.1 - 2 ^ 52)
    leBytes 8 ((if neg then 2 ^ 63 else 0) + u)

/-- `atof(str)` on the byte tail starting at the field (the C call reads
from the field start through the end of the number token, stopping at the
first byte that cannot extend it). -/
def atofModel (s : List Nat) : List Nat :=
  let s1 := s.dropWhile (fun c => c = 32 || (9 ≤ c && c ≤ 13))
  let signAndRest : Bool × List Nat :=
    match s1 with
    | 45 :: r => (true, r)
    | 43 :: r => (false, r)
    | _ => (false, s1)
  let d1p := digitRun signAndRest.2
  let d2p : List Nat × List Nat :=
    match d1p.2 with
    | 46 :: r => digitRun r
    | _ => ([], d1p.2)
  if d1p.1 = [] ∧ d2p.1 = [] then leBytes 8 0
  else
    let ex : Int :=
      match d2p.2 with
      | 101 :: 45 :: r2 => (if (digitRun r2).1 = [] then 0 else -(natOfDigits (digitRun r2).1 : Int))
      | 101 :: 43 :: r2 => (if (digitRun r2).1 = [] then 0 else (natOfDigits (digitRun r2).1 : Int))
      | 101 :: r2 => (if (digitRun r2).1 = [] then 0 else (natOfDigits (digitRun r2).1 : Int))
      | 69 :: 45 :: r2 => (if (digitRun r2).1 = [] then 0 else -(natOfDigits (digitRun r2).1 : Int))
      | 69 :: 43 :: r2 => (if (digitRun r2).1 = [] then 0 else (natOfDigits (digitRun r2).1 : Int))
      | 69 :: r2 => (if (digitRun r2).1 = [] then 0 else (natOfDigits (digitRun r2).1 : Int))
      | _ => 0
    encodeDouble signAndRest.1 (natOfDigits (d1p.1 ++ d2p.1)) (ex - (d2p.1.length : Int))

/-- `strncpy(dst, src, k)`: copy bytes up to the first NUL, zero-padding
to `k` bytes; running off the end of `src` before `k` bytes and before
any NUL is an out-of-bounds read. -/
def strncpyModel (src : List Nat) (k : Nat) : Option (List Nat) :=
  let pre := (src.take k).takeWhile (fun b => b ≠ 0)
  if pre.length = k ∨ pre.length < src.length then
    some (pre ++ List.replicate (k - pre.length) 0)
  else none

/-! ## `pbg_parse` phase 1 (pbg.c lines 236–310)

The first loop counts non-string commas, `[` bytes and `)` bytes.  The
second loop fills `fields`, `lengths` and `closings`.  Note that the
closing-parenthesis cursor `c` is never incremented in the C code (line
282), so every `)` overwrites `closings[0]` and `closings[1..]` stay
uninitialized; the model keeps exactly `closings[0]`.  Array cells are
written append-style; reading an unwritten cell (uninitialized memory) is
`none`. -/

/-- The counting loop.  `prev` is the previously scanned byte; the C read
`str[i-1]` only happens under `instring`, which is false at `i = 0`. -/
def pbg_count_loop : List Nat → Nat → Bool → Nat × Nat × Nat → Nat × Nat × Nat
  | [], _, _, acc => acc
  | c :: rest, prev, instring, acc =>
    let instring2 :=
      if (instring = false ∧ c = 39) ∨ (instring = true ∧ c = 39 ∧ prev ≠ 92) then
        ¬ instring
      else instring
    let acc2 :=
      if instring2 = false then
        (acc.1 + (if c = 44 then 1 else 0),
         acc.2.1 + (if c = 91 then 1 else 0),
         acc.2.2 + (if c = 41 then 1 else 0))
      else acc
    pbg_count_loop rest c instring2 acc2

structure scan_state where
  fields : List Nat
  lengths : List Nat
  closing0 : Option Nat
  opened : Bool
  instring : Bool
deriving Repr, DecidableEq

/-- The field/length/closing scan (pbg.c lines 274–288), starting at
`i = fields[0]`.  `numfields` bounds the `fields` (capacity
`numfields + 1`) and `lengths` (capacity `numfields`) arrays;
`numclosings` must be positive for the `closings[0]` write to be in
bounds.  Reads of `str[i-1]` and `str[i+1]` happen exactly where the C
conditions reach them. -/
def pbg_scan_loop (buf : List Nat) (numfields numclosings : Nat) :
    Nat → Nat → scan_state → Option scan_state
  | 0, _, st => some st
  | fuel + 1, i, st => do
    let c ← readN buf i
    let instring2 ←
      if st.instring = false then pure (decide (c = 39))
      else if c = 39 then do
        let pv ← readI buf ((i : Int) - 1)
        pure (decide (¬ (pv ≠ 92)))
      else pure true
    if instring2 = false then do
      let st1 ←
        if c = 41 then
          if numclosings = 0 then none
          else some { st with closing0 := some i }
        else some st
      let st2 ←
        if st1.opened then do
          let hit ←
            if c = 41 then pure true
            else if c = 44 then do
              let pv ← readI buf ((i : Int) - 1)
              pure (decide (pv ≠ 41))
            else pure false
          if hit then
            match st1.fields.getLast? with
            | none => none
            | some fstart =>
              if st1.lengths.length < numfields then
                some { st1 with lengths := st1.lengths ++ [i - fstart], opened := false }
              else none
          else some st1
        else some st1
      let st3 ←
        if st2.opened = false then do
          let hit ←
            if c = 40 then pure true
            else if c = 44 then do
              let nx ← readN buf (i + 1)
              pure (decide (nx ≠ 40))
            else pure false
          if hit then
            if st2.fields.length < numfields + 1 then
              some { st2 with fields := st2.fields ++ [i + 1], opened := true }
            else none
          else some st2
        else some st2
      pbg_scan_loop buf numfields numclosings fuel (i + 1) { st3 with instring := instring2 }
    else
      pbg_scan_loop buf numfields numclosings fuel (i + 1) { st with instring := instring2 }

/-- The three phase-1 arrays as read by `pbg_parse_r`: `fields[numfields]`
holds the sentinel −1 (written unconditionally after the scan); cells past
the written prefix are uninitialized. -/
structure parse_arrays where
  fields : List Nat
  lengths : List Nat
  closing0 : Option Nat
  numfields : Nat
deriving Repr, DecidableEq

/-- Read `fields[idx]`. -/
def fieldRead (arr : parse_arrays) (idx : Nat) : Option Int :=
  if idx = arr.numfields then some (-1)
  else if h : idx < arr.fields.length then some ((arr.fields.get ⟨idx, h⟩ : Nat) : Int)
  else none

/-- Read `lengths[idx]`. -/
def lengthRead (arr : parse_arrays) (idx : Nat) : Option Nat :=
  if idx < arr.lengths.length then arr.lengths.get? idx else none

/-- Read `closings[idx]`: only index 0 is ever written (the `c` cursor is
never incremented); higher cells are uninitialized or out of bounds. -/
def closingRead (arr : parse_arrays) (idx : Nat) : Option Nat :=
  if idx = 0 then arr.closing0 else none

/-- The two arenas during phase 2, with their fill counters.  Cells are
`none` until written; the arrays have exactly their malloc'd lengths. -/
structure parse_state where
  stat : List (Option pbg_expr_node)
  dyn : List (Option pbg_expr_node)
  staticsz : Nat
  dynamicsz : Nat
deriving Repr, DecidableEq

def writeArr (l : List (Option pbg_expr_node)) (idx : Nat)
    (nd : pbg_expr_node) : Option (List (Option pbg_expr_node)) :=
  if idx < l.length then some (l.set idx (some nd)) else none

/-- The child-collection loop of `pbg_parse_r` (pbg.c lines 108–121):
`while(fields[ret.arg.field] != -1 && fields[...] < closings[ret.arg.closing])`.
The growing/trimmed `children` array is modelled as the collected list. -/
def pbg_children_loop
    (arr : parse_arrays)
    (rec : parse_state → Nat → Nat → Option (parse_state × Nat × Nat × Int)) :
    Nat → parse_state → Nat → Nat → List Int →
    Option (parse_state × Nat × Nat × List Int)
  | 0, _, _, _, _ => none
  | lf + 1, st, fcur, ccur, acc => do
    let fv ← fieldRead arr fcur
    if fv = -1 then some (st, fcur, ccur, acc)
    else do
      let cl ← closingRead arr ccur
      if fv < (cl : Int) then do
        let r ← rec st fcur ccur
        pbg_children_loop arr rec lf r.1 r.2.1 r.2.2.1 (acc ++ [r.2.2.2])
      else some (st, fcur, ccur, acc)

/-- One invocation of `pbg_parse_r` (pbg.c lines 79–234), parameterized by
the recursive call; returns the updated state, the new `field` and
`closing` cursors, and the created node's signed index. -/
def pbg_parse_step (buf : List Nat) (arr : parse_arrays)
    (rec : parse_state → Nat → Nat → Option (parse_state × Nat × Nat × Int))
    (loopfuel : Nat) (st : parse_state) (fcur ccur : Nat) :
    Option (parse_state × Nat × Nat × Int) := do
  let foffI ← fieldRead arr fcur
  let len ← lengthRead arr fcur
  if foffI < 0 then none
  else do
    let off := foffI.toNat
    let ty ← pbg_toop buf off len
    if ty ≠ .PBG_UNKNOWN then do
      -- operator: allocate the next static slot, then collect children.
      let nodeidx := st.staticsz
      if st.stat.length ≤ nodeidx then none
      else do
        let st1 : parse_state := { st with staticsz := nodeidx + 1 }
        let r ← pbg_children_loop arr rec loopfuel st1 (fcur + 1) ccur []
        let nd : pbg_expr_node := ⟨ty, (r.2.2.2.length : Int), .children r.2.2.2⟩
        let stat2 ← writeArr r.1.stat nodeidx nd
        some ({ r.1 with stat := stat2 }, r.2.1, r.2.2.1 + 1, (nodeidx : Int))
    else do
      let isk ← pbg_iskey buf off len
      if isk then do
        -- KEY: dynamic node −(dynamicsz)−1
        let idx := st.dynamicsz
        let payload ← strncpyModel (buf.drop (off + 1)) (len - 2)
        let nd : pbg_expr_node := ⟨.PBG_LT_KEY, (len : Int) - 2, .bytes payload⟩
        let dyn2 ← writeArr st.dyn idx nd
        some ({ st with dyn := dyn2, dynamicsz := idx + 1 }, fcur + 1, ccur,
          -(idx : Int) - 1)
      else do
        let isd ← pbg_isdate buf off len
        if isd then do
          let idx := st.staticsz
          let d ← pbg_todate buf off
          -- _int = sizeof(pbg_type_date): three packed C ints = 12 bytes
          let nd : pbg_expr_node := ⟨.PBG_LT_DATE, 12, d⟩
          let stat2 ← writeArr st.stat idx nd
          some ({ st with stat := stat2, staticsz := idx + 1 }, fcur + 1, ccur, (idx : Int))
        else do
          let isn ← pbg_isnumber buf off len
          if isn then do
            let idx := st.staticsz
            -- _int = sizeof(double) = 8; payload = atof(str) from the field start
            let nd : pbg_expr_node := ⟨.PBG_LT_NUMBER, 8, .bytes (atofModel (buf.drop off))⟩
            let stat2 ← writeArr st.stat idx nd
            some ({ st with stat := stat2, staticsz := idx + 1 }, fcur + 1, ccur, (idx : Int))
          else do
            let iss ← pbg_isstring buf off len
            if iss then do
              let idx := st.staticsz
              let payload ← strncpyModel (buf.drop (off + 1)) (len - 2)
              let nd : pbg_expr_node := ⟨.PBG_LT_STRING, (len : Int) - 2, .bytes payload⟩
              let stat2 ← writeArr st.stat idx nd
              some ({ st with stat := stat2, staticsz := idx + 1 }, fcur + 1, ccur, (idx : Int))
            else do
              let ist ← pbg_istrue buf off len
              if ist then do
                let idx := st.staticsz
                let nd : pbg_expr_node := ⟨.PBG_LT_TRUE, 0, .null⟩
                let stat2 ← writeArr st.stat idx nd
                some ({ st with stat := stat2, staticsz := idx + 1 }, fcur + 1, ccur, (idx : Int))
              else do
                let isf ← pbg_isfalse buf off len
                if isf then do
                  let idx := st.staticsz
                  let nd : pbg_expr_node := ⟨.PBG_LT_FALSE, 0, .null⟩
                  let stat2 ← writeArr st.stat idx nd
                  some ({ st with stat := stat2, staticsz := idx + 1 }, fcur + 1, ccur, (idx : Int))
                else none
                -- invalid literal: the C code leaves the node and
                -- `ret.nodeidx` uninitialized (undefined behaviour)

/-- `pbg_parse_r`, fueled by recursion depth. -/
def pbg_parse_r (buf : List Nat) (arr : parse_arrays) :
    Nat → parse_state → Nat → Nat → Option (parse_state × Nat × Nat × Int)
  | 0, _, _, _ => none
  | fuel + 1, st, fcur, ccur =>
    pbg_parse_step buf arr (fun st2 f c => pbg_parse_r buf arr fuel st2 f c)
      (arr.numfields + 2) st fcur ccur

def listPullSome {α : Type} : List (Option α) → Option (List α)
  | [] => some []
  | none :: _ => none
  | some a :: rest => (listPullSome rest).map (fun l => a :: l)

/-- `pbg_parse` (pbg.c lines 236–310), returning the built expression, the
root's signed node index (the top-level `ret.nodeidx`), and the two
allocated arena sizes.  The expression keeps the initialized prefixes of
the arenas: a child reference into the uninitialized tail dereferences
uninitialized memory, which `get_expr_node`'s bound then reports as
`none`.  `numstatic = (numcommas+1) - numkeys` is C `int` arithmetic; a
negative value makes `malloc` fail so that every static write faults,
which coincides with a zero-length arena. -/
def pbg_parse_full (buf : List Nat) :
    Option (pbg_expr × Int × Nat × Nat) := do
  let n := buf.length
  let cnt := pbg_count_loop buf 0 false (0, 0, 0)
  let numcommas := cnt.1
  let numkeys := cnt.2.1
  let numclosings := cnt.2.2
  let numfields := numcommas + 1
  let numstatic := numfields - numkeys
  let numdynamic := numkeys
  let c0 ← readN buf 0
  let f0 := if c0 = 40 then 1 else 0
  let st ← pbg_scan_loop buf numfields numclosings (n - f0) f0
    ⟨[f0], [], none, true, false⟩
  let arr : parse_arrays := ⟨st.fields, st.lengths, st.closing0, numfields⟩
  let pst0 : parse_state :=
    ⟨List.replicate numstatic none, List.replicate numdynamic none, 0, 0⟩
  let r ← pbg_parse_r buf arr (numfields + 2) pst0 0 0
  let statics ← listPullSome (r.1.stat.take r.1.staticsz)
  let dynamics ← listPullSome (r.1.dyn.take r.1.dynamicsz)
  some (⟨statics, dynamics⟩, r.2.2.2, numstatic, numdynamic)

def pbg_parse (buf : List Nat) : Option pbg_expr :=
  (pbg_parse_full buf).map (fun r => r.1)

-- temporary sanity checks
example : (pbg_parse (strBytes "(&,TRUE,FALSE)")).isSome = true := by decide
example : pbg_parse (strBytes "(&,TRUE,FALSE)") =
    some ⟨[⟨.PBG_OP_AND, 2, .children [1, 2]⟩, ⟨.PBG_LT_TRUE, 0, .null⟩,
      ⟨.PBG_LT_FALSE, 0, .null⟩], []⟩ := by decide
example : pbg_parse_full (strBytes "([k])") =
    some (⟨[], [⟨.PBG_LT_KEY, 1, .bytes [107]⟩]⟩, -1, 0, 1) := by decide
example : pbg_parse (strBytes "TRUE") = none := by decide

-- more temporary sanity checks
example : pbg_parse (strBytes "(&,(!,TRUE),FALSE)") =
    some ⟨[⟨.PBG_OP_AND, 1, .children [1]⟩, ⟨.PBG_OP_NOT, 2, .children [2, 3]⟩,
      ⟨.PBG_LT_TRUE, 0, .null⟩, ⟨.PBG_LT_FALSE, 0, .null⟩], []⟩ := by decide
example : pbg_parse (strBytes "(!,2.5)") =
    some ⟨[⟨.PBG_OP_NOT, 1, .children [1]⟩,
      ⟨.PBG_LT_NUMBER, 8, .bytes [0, 0, 0, 0, 0, 0, 4, 64]⟩], []⟩ := by decide
example : pbg_parse (strBytes "(=,2020-01-31,'a,b')") =
    some ⟨[⟨.PBG_OP_EQ, 2, .children [1, 2]⟩, ⟨.PBG_LT_DATE, 12, .date 2020 1 31⟩,
      ⟨.PBG_LT_STRING, 3, .bytes (strBytes "a,b")⟩], []⟩ := by decide

/-! ## The renderer `pbg_gets_r` (pbg.c lines 448–536)

The output buffer is written strictly left to right through the running
index `i`, so it is modelled as the produced byte list.  (The `pbg_gets`
wrapper mallocs a fixed 1000-byte buffer — `TODO fix me` at line 532 —
whose overflow is a memory-safety matter outside this model; the buffer is
treated as unbounded.)  The DATE `snprintf("%04d"/"%02d")` calls write at
most 4/2 digits plus a NUL that the following write overwrites; values
needing more digits would leave a NUL or uninitialized bytes inside the
output, modelled as `none`. -/

/-- Decimal digit bytes of `v` (no leading zeros), fueled structurally. -/
def natDecimalAux : Nat → Nat → List Nat
  | 0, _ => []
  | f + 1, v => if v = 0 then [] else natDecimalAux f (v / 10) ++ [48 + v % 10]

def natDecimal (v : Nat) : List Nat :=
  if v = 0 then [48] else natDecimalAux (v + 1) v

/-- `%0kd` of a value that fits in `k` digits. -/
def padDec (k v : Nat) : List Nat :=
  let ds := natDecimal v
  List.replicate (k - ds.length) 48 ++ ds

/-- The bytes glibc `sprintf("%.2lf", x)` produces for the binary64 word
`u`: sign, the integer part without leading zeros, a period and exactly
two fractional digits, the value correctly rounded to 2 decimals (ties to
even); infinities print `inf`, NaNs `nan`. -/
def sprintf_2lf (u : Nat) : List Nat :=
  let sgn := dbl_sign u % 2 = 1
  let mag := dbl_mag u
  let E : Nat := mag / 2 ^ 52
  let M : Nat := mag % 2 ^ 52
  if E = 2047 then
    (if sgn then [45] else []) ++ (if M = 0 then strBytes "inf" else strBytes "nan")
  else
    let m : Nat := if E = 0 then M else M + 2 ^ 52
    let e2 : Int := (if E = 0 then 1 else (E : Int)) - 1075
    let N := if 0 ≤ e2 then m * 100 * 2 ^ e2.toNat else m * 100
    let D := if 0 ≤ e2 then 1 else 2 ^ (-e2).toNat
    let K := N / D + (if D < 2 * (N % D) ∨ (2 * (N % D) = D ∧ (N / D) % 2 = 1) then 1 else 0)
    (if sgn then [45] else []) ++ natDecimal (K / 100) ++ [46] ++
      [48 + K / 10 % 10, 48 + K % 10]

/-- The child loop of the operator branch (pbg.c lines 518–524): children
in stored order, `,` between consecutive children. -/
def pbg_gets_children (e : pbg_expr) (rec : pbg_expr_node → Option (List Nat))
    (cs : List Int) : Nat → Nat → Option (List Nat)
  | _, 0 => some []
  | j, rem + 1 => do
    let c ← cs.get? j
    let nd ← get_expr_node e c
    let s ← rec nd
    let t ← pbg_gets_children e rec cs (j + 1) rem
    some (s ++ (if rem = 0 then [] else [44]) ++ t)

/-- One step of `pbg_gets_r`, parameterized by the recursive call. -/
def pbg_gets_step (e : pbg_expr) (rec : pbg_expr_node → Option (List Nat))
    (node : pbg_expr_node) : Option (List Nat) :=
  if isLT node._type then
    match node._type with
    | .PBG_LT_TRUE => some (strBytes "TRUE")
    | .PBG_LT_FALSE => some (strBytes "FALSE")
    | .PBG_LT_STRING =>
      if node._int ≤ 0 then some [39, 39]
      else do
        let bs ← pbg_data_bytes node._data
        if node._int.toNat ≤ bs.length then
          some ([39] ++ bs.take node._int.toNat ++ [39])
        else none
    | .PBG_LT_DATE =>
      match node._data with
      | .date y m d =>
        if 0 ≤ y ∧ y ≤ 9999 ∧ 0 ≤ m ∧ m ≤ 99 ∧ 0 ≤ d ∧ d ≤ 99 then
          some (padDec 4 y.toNat ++ [45] ++ padDec 2 m.toNat ++ [45] ++ padDec 2 d.toNat)
        else none
      | _ => none
    | .PBG_LT_KEY =>
      if node._int ≤ 0 then some [91, 93]
      else do
        let bs ← pbg_data_bytes node._data
        if node._int.toNat ≤ bs.length then
          some ([91] ++ bs.take node._int.toNat ++ [93])
        else none
    | .PBG_LT_NUMBER => do
      let u ← pbg_read_double node._data
      some (sprintf_2lf u)
    | _ => some []
  else if isOP node._type then
    match node._data with
    | .children cs => do
      let sym : List Nat :=
        match node._type with
        | .PBG_OP_NOT => [33]
        | .PBG_OP_AND => [38]
        | .PBG_OP_OR => [124]
        | .PBG_OP_EQ => [61]
        | .PBG_OP_LT => [60]
        | .PBG_OP_GT => [62]
        | .PBG_OP_EXST => [63]
        | .PBG_OP_NEQ => [33, 61]
        | .PBG_OP_LTE => [60, 61]
        | .PBG_OP_GTE => [62, 61]
        | _ => []
      let body ← pbg_gets_children e rec cs 0 node._int.toNat
      some ([40] ++ sym ++ [44] ++ body ++ [41])
    | _ => none
  else some []

/-- `pbg_gets_r`, fueled by recursion depth. -/
def pbg_gets_r (e : pbg_expr) : Nat → pbg_expr_node → Option (List Nat)
  | 0, _ => none
  | fuel + 1, node => pbg_gets_step e (fun nd => pbg_gets_r e fuel nd) node

/-- `pbg_gets`: render from `e->_static` (static index 0). -/
def pbg_gets (e : pbg_expr) (fuel : Nat) : Option (List Nat) := do
  let root ← e._static.get? 0
  pbg_gets_r e fuel root

-- temporary sanity checks: render, and parse∘render
example : (do let e ← pbg_parse (strBytes "(&,(!,TRUE),FALSE)"); pbg_gets e 9)
    = some (strBytes "(&,(!,TRUE,FALSE))") := by decide
example : (do let e ← pbg_parse (strBytes "(&,(!,TRUE,FALSE))"); pbg_gets e 9)
    = some (strBytes "(&,(!,TRUE,FALSE))") := by decide
example : (do let e ← pbg_parse (strBytes "(<,2.5,3)"); pbg_gets e 9)
    = some (strBytes "(<,2.50,3.00)") := by decide
example : (do let e ← pbg_parse (strBytes "(=,2020-01-31,[k])"); pbg_gets e 9)
    = some (strBytes "(=,2020-01-31,[k])") := by decide
set_option maxRecDepth 10000 in
example : (do let e ← pbg_parse (strBytes "(!,1.0e999)"); pbg_gets e 9)
    = some (strBytes "(!,inf)") := by decide
example : pbg_parse (strBytes "(!,inf)") = none := by decide

/-! ## Claims -/

/-- C9 (counterexample): the is-string recognizer does **not** require
length ≥ 2: the single byte `'` (a range of length 1, where the first and
last position coincide) is recognized as a string, contradicting the
claim's "length ≥ 2" clause. -/
theorem C9_counterexample :
    pbg_isstring (strBytes "'") 0 1 = some true ∧ ¬ (2 ≤ 1) := by
  constructor
  · decide
  · decide

/-- C9 (amended): for every byte range `[off, off+n)` with `n ≥ 1` inside
the buffer, `pbg_isstring` returns true iff the first byte and the last
byte of the range are both `'` — with no length requirement, so a range
consisting of the single byte `'` **is** recognized as a string. -/
theorem C9_amended (buf : List Nat) (off n : Nat) (h1 : 1 ≤ n)
    (h2 : off + n ≤ buf.length) :
    pbg_isstring buf off n = some true ↔
      (buf.get? off = some 39 ∧ buf.get? (off + n - 1) = some 39) := by
  have hoff : off < buf.length := by omega
  have hlast : off + n - 1 < buf.length := by omega
  obtain ⟨c0, hc0⟩ : ∃ c, buf.get? off = some c := by
    cases h : buf.get? off with
    | none => rw [List.get?_eq_none] at h; omega
    | some c => exact ⟨c, rfl⟩
  obtain ⟨c1, hc1⟩ : ∃ c, buf.get? (off + n - 1) = some c := by
    cases h : buf.get? (off + n - 1) with
    | none => rw [List.get?_eq_none] at h; omega
    | some c => exact ⟨c, rfl⟩
  have hidx : ((off : Int) + (n : Int) - 1).toNat = off + n - 1 := by omega
  have hnonneg : ¬ ((off : Int) + (n : Int) - 1 < 0) := by omega
  simp only [pbg_isstring, readN, readI, hc0, hc1, hidx, hnonneg, if_false,
    Option.bind_eq_bind, Option.some_bind]
  by_cases h0 : c0 = 39 <;> by_cases h1' : c1 = 39 <;>
    simp [h0, h1', hc0, hc1]

/-- C9 (witness for the amended theorem). -/
theorem C9_amended_witness :
    pbg_isstring (strBytes "'a'") 0 3 = some true ↔
      ((strBytes "'a'").get? 0 = some 39 ∧ (strBytes "'a'").get? 2 = some 39) :=
  C9_amended (strBytes "'a'") 0 3 (by decide) (by decide)

/-- C10 (counterexample): the is-number recognizer's result **does**
depend on bytes at and past `p+n`: the two buffers `"0,"` and `"0.x"`
agree on the range `[0,1)` (both are the single byte `'0'`), yet the
recognizer accepts the first and rejects the second, because the
fall-through checks for `'.'`/`'e'` read `str[n]` and beyond. -/
theorem C10_counterexample :
    pbg_isnumber (strBytes "0,") 0 1 = some true ∧
    pbg_isnumber (strBytes "0.x") 0 1 = some false ∧
    (strBytes "0,").take 1 = (strBytes "0.x").take 1 := by
  refine ⟨by decide, by decide, by decide⟩

/-- C10 (amended): the is-number recognizer may read the byte at `p+n`
and beyond.  With indexing embedded as `Option`, an out-of-range access
is reachable (the range `"0"` of length 1 at the very end of the buffer),
and when bytes follow the range the result depends on them. -/
theorem C10_amended :
    pbg_isnumber (strBytes "0") 0 1 = none ∧
    pbg_isnumber (strBytes "0,") 0 1 = some true ∧
    pbg_isnumber (strBytes "0.x") 0 1 = some false := by
  refine ⟨by decide, by decide, by decide⟩

/-- C3 (code bug): on the parsed expressions `(!=,1,2)` and `(=,1,2)` —
two NUMBER children with payloads 1.0 and 2.0 — EQ evaluates to false
(their 8 payload bytes differ at byte 6), but NEQ **also** evaluates to
false instead of EQ's negation: NEQ compares payloads with `strncmp`,
which stops at the first NUL byte, and byte 0 of both doubles is 0. -/
theorem C3_failing :
    (do
      let e ← pbg_parse (strBytes "(!=,1,2)")
      pbg_evaluate (σ := Unit) e (fun s _ _ => (⟨.PBG_UNKNOWN, 0, .null⟩, s)) () 2)
      = some (0, ()) ∧
    (do
      let e ← pbg_parse (strBytes "(=,1,2)")
      pbg_evaluate (σ := Unit) e (fun s _ _ => (⟨.PBG_UNKNOWN, 0, .null⟩, s)) () 2)
      = some (0, ()) := by
  refine ⟨by decide, by decide⟩

/-- C7 (code bug): a comparison on operands that are not both NUMBER
literals does **not** surface an evaluation error.  On
`(<,'aaaaaaaa','aaaaaaaa')` the evaluator reinterprets the two 8-byte
STRING payloads as doubles and returns the ordinary boolean 0; on
`(<,TRUE,TRUE)` it dereferences the boolean literals' NULL payloads —
undefined behaviour (`none`), a crash rather than a surfaced error.  The
evaluator has no error channel at all: its C return type is the plain
`int` truth value. -/
theorem C7_failing :
    (do
      let e ← pbg_parse (strBytes "(<,'aaaaaaaa','aaaaaaaa')")
      pbg_evaluate (σ := Unit) e (fun s _ _ => (⟨.PBG_UNKNOWN, 0, .null⟩, s)) () 2)
      = some (0, ()) ∧
    (do
      let e ← pbg_parse (strBytes "(<,TRUE,TRUE)")
      pbg_evaluate (σ := Unit) e (fun s _ _ => (⟨.PBG_UNKNOWN, 0, .null⟩, s)) () 2)
      = none := by
  refine ⟨by decide, by decide⟩

/-! ### Loop lemmas for the evaluator -/

lemma option_bind_some {α β : Type} {x : Option α} {f : α → Option β} {b : β}
    (h : (x >>= f) = some b) : ∃ a, x = some a ∧ f a = some b := by
  cases x with
  | none => simp at h
  | some a => exact ⟨a, rfl, h⟩

lemma optBind_some {α β : Type} (a : α) (f : α → Option β) :
    (some a >>= f) = f a := rfl

lemma optBind_none {α β : Type} (f : α → Option β) :
    ((none : Option α) >>= f) = none := rfl

lemma optDotBind_some {α β : Type} (a : α) (f : α → Option β) :
    Option.bind (some a) f = f a := rfl

lemma optDotBind_none {α β : Type} (f : α → Option β) :
    Option.bind (none : Option α) f = none := rfl

lemma pbg_and_loop_zero_one {ev : pbg_expr_node → Option Int} {e : pbg_expr}
    {cs : List Int} : ∀ {rem i r}, pbg_and_loop ev e cs i rem = some r →
    r = 0 ∨ r = 1 := by
  intro rem
  induction rem with
  | zero => intro i r h; simp [pbg_and_loop] at h; omega
  | succ rem ih =>
    intro i r h
    simp only [pbg_and_loop] at h
    obtain ⟨c, hc, h⟩ := option_bind_some h
    obtain ⟨nd, hnd, h⟩ := option_bind_some h
    obtain ⟨v, hv, h⟩ := option_bind_some h
    by_cases hv0 : v = 0
    · simp [hv0] at h; omega
    · simp [hv0] at h; exact ih h

lemma pbg_or_loop_zero_one {ev : pbg_expr_node → Option Int} {e : pbg_expr}
    {cs : List Int} : ∀ {rem i r}, pbg_or_loop ev e cs i rem = some r →
    r = 0 ∨ r = 1 := by
  intro rem
  induction rem with
  | zero => intro i r h; simp [pbg_or_loop] at h; omega
  | succ rem ih =>
    intro i r h
    simp only [pbg_or_loop] at h
    obtain ⟨c, hc, h⟩ := option_bind_some h
    obtain ⟨nd, hnd, h⟩ := option_bind_some h
    obtain ⟨v, hv, h⟩ := option_bind_some h
    by_cases hv1 : v = 1
    · simp [hv1] at h; omega
    · simp [hv1] at h; exact ih h

lemma pbg_eq_loop_zero_one {e : pbg_expr} {c0o : Option pbg_expr_node}
    {cs : List Int} : ∀ {rem i r}, pbg_eq_loop e c0o cs i rem = some r →
    r = 0 ∨ r = 1 := by
  intro rem
  induction rem with
  | zero => intro i r h; simp [pbg_eq_loop] at h; omega
  | succ rem ih =>
    intro i r h
    simp only [pbg_eq_loop] at h
    obtain ⟨c, hc, h⟩ := option_bind_some h
    obtain ⟨nd, hnd, h⟩ := option_bind_some h
    obtain ⟨c0, hc0, h⟩ := option_bind_some h
    by_cases hmis : nd._int ≠ c0._int ∨ nd._type ≠ c0._type
    · simp [if_pos hmis] at h; omega
    · simp only [if_neg hmis] at h
      obtain ⟨b, hb, h⟩ := option_bind_some h
      by_cases hbt : b = true
      · simp [hbt] at h; exact ih h
      · simp [eq_false_of_ne_true hbt] at h; omega

/-- Every value produced by one evaluator step is 0 or 1. -/
lemma pbg_eval_step_zero_one {e : pbg_expr} {ev : pbg_expr_node → Option Int}
    {nd : pbg_expr_node} {r : Int} (h : pbg_eval_step e ev nd = some r) :
    r = 0 ∨ r = 1 := by
  unfold pbg_eval_step at h
  by_cases hlt : isLT nd._type
  · simp only [hlt, if_pos] at h
    split at h <;> (try split at h) <;> simp_all <;> omega
  · simp only [hlt] at h
    by_cases hop : isOP nd._type
    · simp only [hop, if_pos, if_true, if_false, Bool.false_eq_true] at h
      revert h
      match hd : nd._data with
      | .null | .bytes _ | .date _ _ _ => intro h; simp at h
      | .children cs =>
        match cs with
        | [] => intro h; simp at h
        | c0 :: rest =>
          match ht : nd._type with
          | .PBG_OP_NOT =>
            intro h
            obtain ⟨nd0, _, h⟩ := option_bind_some h
            obtain ⟨v, _, h⟩ := option_bind_some h
            simp at h
            split at h <;> omega
          | .PBG_OP_AND => exact fun h => pbg_and_loop_zero_one h
          | .PBG_OP_OR => exact fun h => pbg_or_loop_zero_one h
          | .PBG_OP_EQ => exact fun h => pbg_eq_loop_zero_one h
          | .PBG_OP_LT | .PBG_OP_GT | .PBG_OP_LTE | .PBG_OP_GTE =>
            intro h
            obtain ⟨c1, _, h⟩ := option_bind_some h
            obtain ⟨nd1, _, h⟩ := option_bind_some h
            obtain ⟨nd0, _, h⟩ := option_bind_some h
            obtain ⟨a, _, h⟩ := option_bind_some h
            obtain ⟨b, _, h⟩ := option_bind_some h
            simp at h
            split at h <;> omega
          | .PBG_OP_EXST =>
            intro h
            obtain ⟨nd0, _, h⟩ := option_bind_some h
            simp at h
            split at h <;> omega
          | .PBG_OP_NEQ =>
            intro h
            obtain ⟨c1, _, h⟩ := option_bind_some h
            obtain ⟨nd1, _, h⟩ := option_bind_some h
            obtain ⟨nd0, _, h⟩ := option_bind_some h
            split at h
            · simp at h; omega
            · obtain ⟨b, _, h⟩ := option_bind_some h
              simp at h
              split at h <;> omega
          | .PBG_LT_TRUE | .PBG_LT_FALSE | .PBG_LT_NUMBER | .PBG_LT_STRING
          | .PBG_LT_DATE | .PBG_LT_KEY | .PBG_UNKNOWN =>
            intro h; simp [ht] at hop <;> simp [isOP] at hop
    · simp [hop] at h

/-- Every value returned by `pbg_evaluate_r` is 0 or 1. -/
lemma pbg_evaluate_r_zero_one {e : pbg_expr} {fuel : Nat} {nd : pbg_expr_node}
    {r : Int} (h : pbg_evaluate_r e fuel nd = some r) : r = 0 ∨ r = 1 := by
  cases fuel with
  | zero => simp [pbg_evaluate_r] at h
  | succ fuel => exact pbg_eval_step_zero_one h

lemma pbg_and_loop_iff {ev : pbg_expr_node → Option Int} {e : pbg_expr}
    {cs : List Int} (hev : ∀ nd r, ev nd = some r → r = 0 ∨ r = 1) :
    ∀ (rem i : Nat), i + rem = cs.length →
    (pbg_and_loop ev e cs i rem = some 1 ↔
      ∀ c ∈ cs.drop i, ((get_expr_node e c).bind ev) = some 1) := by
  intro rem
  induction rem with
  | zero =>
    intro i h
    have hnil : cs.drop i = [] := List.drop_eq_nil_of_le (by omega)
    rw [hnil]
    simp [pbg_and_loop]
  | succ rem ih =>
    intro i h
    have hi : i < cs.length := by omega
    have hget := List.get?_eq_get hi
    have hdrop : cs.drop i = cs.get ⟨i, hi⟩ :: cs.drop (i + 1) :=
      List.drop_eq_get_cons hi
    simp only [List.get_eq_getElem] at hget hdrop
    have hmem : cs[i] ∈ cs.drop i := by rw [hdrop]; exact List.mem_cons_self _ _
    cases hg : get_expr_node e cs[i] with
    | none =>
      have hloop : pbg_and_loop ev e cs i (rem + 1) = none := by
        simp only [pbg_and_loop, hget, hg, optBind_some, optBind_none]
      rw [hloop]
      apply iff_of_false
      · simp
      · intro hall
        have hx := hall _ hmem
        rw [hg, optDotBind_none] at hx
        simp at hx
    | some nd =>
      cases hr : ev nd with
      | none =>
        have hloop : pbg_and_loop ev e cs i (rem + 1) = none := by
          simp only [pbg_and_loop, hget, hg, hr, optBind_some, optBind_none]
        rw [hloop]
        apply iff_of_false
        · simp
        · intro hall
          have hx := hall _ hmem
          rw [hg, optDotBind_some, hr] at hx
          simp at hx
      | some v =>
        by_cases hv : v = 0
        · subst hv
          have hloop : pbg_and_loop ev e cs i (rem + 1) = some 0 := by
            simp only [pbg_and_loop, hget, hg, hr, optBind_some, optBind_none]
            norm_num
          rw [hloop]
          apply iff_of_false
          · simp
          · intro hall
            have hx := hall _ hmem
            rw [hg, optDotBind_some, hr] at hx
            simp at hx
        · have hv1 : v = 1 := by rcases hev nd v hr with h0 | h1 <;> omega
          subst hv1
          have hloop : pbg_and_loop ev e cs i (rem + 1) =
              pbg_and_loop ev e cs (i + 1) rem := by
            simp only [pbg_and_loop, hget, hg, hr, optBind_some, optBind_none]
            norm_num
          rw [hloop, ih (i + 1) (by omega)]
          constructor
          · intro hrest c hcmem
            rw [hdrop] at hcmem
            rcases List.mem_cons.mp hcmem with hc | hc
            · subst hc
              rw [hg, optDotBind_some, hr]
            · exact hrest c hc
          · intro hall c hcmem
            exact hall c (by rw [hdrop]; exact List.mem_cons_of_mem _ hcmem)

lemma pbg_and_loop_short {ev : pbg_expr_node → Option Int} {e : pbg_expr}
    {cs : List Int} :
    ∀ (l : List Int) (i rem : Nat) (c : Int) (r' : List Int),
    i + rem = cs.length → cs.drop i = l ++ c :: r' →
    (∀ x ∈ l, ((get_expr_node e x).bind ev) = some 1) →
    ((get_expr_node e c).bind ev) = some 0 →
    pbg_and_loop ev e cs i rem = some 0 := by
  intro l
  induction l with
  | nil =>
    intro i rem c r' h hdrop hall hc
    have hi : i < cs.length := by
      by_contra hcon
      rw [List.drop_eq_nil_of_le (by omega)] at hdrop
      simp at hdrop
    have hget := List.get?_eq_get hi
    have hd2 : cs.drop i = cs.get ⟨i, hi⟩ :: cs.drop (i + 1) :=
      List.drop_eq_get_cons hi
    simp only [List.get_eq_getElem] at hget hd2
    rw [hd2, List.nil_append] at hdrop
    injection hdrop with hcc hrest
    obtain ⟨rem', hrem⟩ : ∃ rem', rem = rem' + 1 := by
      cases rem with
      | zero => omega
      | succ rem' => exact ⟨rem', rfl⟩
    subst hrem
    simp only [pbg_and_loop, hget, optBind_some, hcc]
    obtain ⟨nd, hnd, hev0⟩ := option_bind_some hc
    simp [hnd, hev0]
  | cons x l2 ih =>
    intro i rem c r' h hdrop hall hc
    have hi : i < cs.length := by
      by_contra hcon
      rw [List.drop_eq_nil_of_le (by omega)] at hdrop
      simp at hdrop
    have hget := List.get?_eq_get hi
    have hd2 : cs.drop i = cs.get ⟨i, hi⟩ :: cs.drop (i + 1) :=
      List.drop_eq_get_cons hi
    simp only [List.get_eq_getElem] at hget hd2
    rw [hd2, List.cons_append] at hdrop
    injection hdrop with hxx hrest
    obtain ⟨rem', hrem⟩ : ∃ rem', rem = rem' + 1 := by
      cases rem with
      | zero => omega
      | succ rem' => exact ⟨rem', rfl⟩
    subst hrem
    simp only [pbg_and_loop, hget, optBind_some]
    have hx1 : ((get_expr_node e cs[i]).bind ev) = some 1 := by
      rw [hxx]; exact hall x (by simp)
    obtain ⟨nd, hnd, hev1⟩ := option_bind_some hx1
    simp only [hnd, optBind_some, hev1, if_neg (by omega : ¬ (1 : Int) = 0)]
    exact ih (i + 1) rem' c r' (by omega) hrest (fun y hy => hall y (by simp [hy])) hc

lemma pbg_or_loop_iff {ev : pbg_expr_node → Option Int} {e : pbg_expr}
    {cs : List Int} :
    ∀ (rem i : Nat), i + rem = cs.length →
    (∀ c ∈ cs.drop i, ((get_expr_node e c).bind ev).isSome) →
    (pbg_or_loop ev e cs i rem = some 1 ↔
      ∃ c ∈ cs.drop i, ((get_expr_node e c).bind ev) = some 1) := by
  intro rem
  induction rem with
  | zero =>
    intro i h hdef
    have hnil : cs.drop i = [] := List.drop_eq_nil_of_le (by omega)
    rw [hnil]
    simp [pbg_or_loop]
  | succ rem ih =>
    intro i h hdef
    have hi : i < cs.length := by omega
    have hget := List.get?_eq_get hi
    have hdrop : cs.drop i = cs.get ⟨i, hi⟩ :: cs.drop (i + 1) :=
      List.drop_eq_get_cons hi
    simp only [List.get_eq_getElem] at hget hdrop
    have hmem : cs[i] ∈ cs.drop i := by rw [hdrop]; exact List.mem_cons_self _ _
    have hdef0 : ((get_expr_node e cs[i]).bind ev).isSome := hdef _ hmem
    cases hg : get_expr_node e cs[i] with
    | none => rw [hg, optDotBind_none] at hdef0; simp at hdef0
    | some nd =>
      cases hr : ev nd with
      | none => rw [hg, optDotBind_some, hr] at hdef0; simp at hdef0
      | some v =>
        by_cases hv : v = 1
        · subst hv
          have hloop : pbg_or_loop ev e cs i (rem + 1) = some 1 := by
            simp only [pbg_or_loop, hget, hg, hr, optBind_some, optBind_none]
            norm_num
          rw [hloop]
          apply iff_of_true rfl
          refine ⟨cs[i], hmem, ?_⟩
          rw [hg, optDotBind_some, hr]
        · have hloop : pbg_or_loop ev e cs i (rem + 1) =
              pbg_or_loop ev e cs (i + 1) rem := by
            simp only [pbg_or_loop, hget, hg, hr, optBind_some, optBind_none]
            norm_num [hv]
          have hdef2 : ∀ c ∈ cs.drop (i + 1), ((get_expr_node e c).bind ev).isSome := by
            intro c hcmem
            exact hdef _ (by rw [hdrop]; exact List.mem_cons_of_mem _ hcmem)
          rw [hloop, ih (i + 1) (by omega) hdef2]
          constructor
          · rintro ⟨c, hcmem, hc⟩
            exact ⟨c, by rw [hdrop]; exact List.mem_cons_of_mem _ hcmem, hc⟩
          · rintro ⟨c, hcmem, hc⟩
            rw [hdrop] at hcmem
            rcases List.mem_cons.mp hcmem with hceq | hcm
            · subst hceq
              rw [hg, optDotBind_some, hr] at hc
              exact absurd (Option.some.inj hc) hv
            · exact ⟨c, hcm, hc⟩

lemma pbg_or_loop_short {ev : pbg_expr_node → Option Int} {e : pbg_expr}
    {cs : List Int} :
    ∀ (l : List Int) (i rem : Nat) (c : Int) (r' : List Int),
    i + rem = cs.length → cs.drop i = l ++ c :: r' →
    (∀ x ∈ l, ((get_expr_node e x).bind ev) = some 0) →
    ((get_expr_node e c).bind ev) = some 1 →
    pbg_or_loop ev e cs i rem = some 1 := by
  intro l
  induction l with
  | nil =>
    intro i rem c r' h hdrop hall hc
    have hi : i < cs.length := by
      by_contra hcon
      rw [List.drop_eq_nil_of_le (by omega)] at hdrop
      simp at hdrop
    have hget := List.get?_eq_get hi
    have hd2 : cs.drop i = cs.get ⟨i, hi⟩ :: cs.drop (i + 1) :=
      List.drop_eq_get_cons hi
    simp only [List.get_eq_getElem] at hget hd2
    rw [hd2, List.nil_append] at hdrop
    injection hdrop with hcc hrest
    obtain ⟨rem', hrem⟩ : ∃ rem', rem = rem' + 1 := by
      cases rem with
      | zero => omega
      | succ rem' => exact ⟨rem', rfl⟩
    subst hrem
    simp only [pbg_or_loop, hget, optBind_some, hcc]
    obtain ⟨nd, hnd, hev1⟩ := option_bind_some hc
    simp [hnd, hev1]
  | cons x l2 ih =>
    intro i rem c r' h hdrop hall hc
    have hi : i < cs.length := by
      by_contra hcon
      rw [List.drop_eq_nil_of_le (by omega)] at hdrop
      simp at hdrop
    have hget := List.get?_eq_get hi
    have hd2 : cs.drop i = cs.get ⟨i, hi⟩ :: cs.drop (i + 1) :=
      List.drop_eq_get_cons hi
    simp only [List.get_eq_getElem] at hget hd2
    rw [hd2, List.cons_append] at hdrop
    injection hdrop with hxx hrest
    obtain ⟨rem', hrem⟩ : ∃ rem', rem = rem' + 1 := by
      cases rem with
      | zero => omega
      | succ rem' => exact ⟨rem', rfl⟩
    subst hrem
    simp only [pbg_or_loop, hget, optBind_some]
    have hx0 : ((get_expr_node e cs[i]).bind ev) = some 0 := by
      rw [hxx]; exact hall x (by simp)
    obtain ⟨nd, hnd, hev0⟩ := option_bind_some hx0
    simp only [hnd, optBind_some, hev0, if_neg (by omega : ¬ (0 : Int) = 1)]
    exact ih (i + 1) rem' c r' (by omega) hrest (fun y hy => hall y (by simp [hy])) hc

lemma evalChild_eq (e : pbg_expr) (fuel : Nat) (c : Int) :
    evalChild e fuel c =
      (get_expr_node e c).bind (fun nd => pbg_evaluate_r e fuel nd) := rfl

lemma eval_and_node (e : pbg_expr) (node : pbg_expr_node) (cs : List Int)
    (fuel : Nat) (ht : node._type = .PBG_OP_AND)
    (hd : node._data = pbg_data.children cs) (hne : cs ≠ []) :
    pbg_evaluate_r e (fuel + 1) node =
      pbg_and_loop (fun nd => pbg_evaluate_r e fuel nd) e cs 0 node._int.toNat := by
  match cs, hne with
  | c0 :: rest, _ =>
    simp only [pbg_evaluate_r, pbg_eval_step, ht, hd, isLT, isOP]
    rfl

lemma eval_or_node (e : pbg_expr) (node : pbg_expr_node) (cs : List Int)
    (fuel : Nat) (ht : node._type = .PBG_OP_OR)
    (hd : node._data = pbg_data.children cs) (hne : cs ≠ []) :
    pbg_evaluate_r e (fuel + 1) node =
      pbg_or_loop (fun nd => pbg_evaluate_r e fuel nd) e cs 0 node._int.toNat := by
  match cs, hne with
  | c0 :: rest, _ =>
    simp only [pbg_evaluate_r, pbg_eval_step, ht, hd, isLT, isOP]
    rfl

/-- C1: for every expression and every AND/OR node whose `_data` is its
child-index array `cs` (with `_int = cs.length` as the parser maintains,
and at least one child per the arity contract): an AND node evaluates to
true (1) iff every child evaluates to true; an OR node evaluates to true
iff some child evaluates to true (the forward direction unconditionally,
the converse when every child's evaluation is defined); and the walk
visits children in stored order, stopping at the first false (AND) or
first true (OR) child — captured by the short-circuit clauses, whose
conclusions hold for **arbitrary** later children `r'`, including
children whose evaluation would be undefined behaviour. -/
theorem C1_and_or_semantics (e : pbg_expr) (node : pbg_expr_node)
    (cs : List Int) (fuel : Nat)
    (hdata : node._data = pbg_data.children cs)
    (hint : node._int = (cs.length : Int))
    (hne : cs ≠ []) :
    (node._type = .PBG_OP_AND →
      ((pbg_evaluate_r e (fuel + 1) node = some 1 ↔
          ∀ c ∈ cs, evalChild e fuel c = some 1) ∧
        (∀ (l : List Int) (c : Int) (r' : List Int), cs = l ++ c :: r' →
          (∀ x ∈ l, evalChild e fuel x = some 1) →
          evalChild e fuel c = some 0 →
          pbg_evaluate_r e (fuel + 1) node = some 0))) ∧
    (node._type = .PBG_OP_OR →
      (((∀ c ∈ cs, (evalChild e fuel c).isSome) →
          (pbg_evaluate_r e (fuel + 1) node = some 1 ↔
            ∃ c ∈ cs, evalChild e fuel c = some 1)) ∧
        (∀ (l : List Int) (c : Int) (r' : List Int), cs = l ++ c :: r' →
          (∀ x ∈ l, evalChild e fuel x = some 0) →
          evalChild e fuel c = some 1 →
          pbg_evaluate_r e (fuel + 1) node = some 1))) := by
  have hev : ∀ nd r, pbg_evaluate_r e fuel nd = some r → r = 0 ∨ r = 1 :=
    fun nd r h => pbg_evaluate_r_zero_one h
  have htoNat : node._int.toNat = cs.length := by
    rw [hint]; exact Int.toNat_natCast _
  constructor
  · intro ht
    rw [eval_and_node e node cs fuel ht hdata hne, htoNat]
    constructor
    · rw [pbg_and_loop_iff hev cs.length 0 (by omega)]
      simp only [List.drop_zero, evalChild_eq]
    · intro l c r' hsplit hall hc
      exact pbg_and_loop_short l 0 cs.length c r' (by omega)
        (by rw [List.drop_zero]; exact hsplit)
        (fun x hx => by rw [← evalChild_eq]; exact hall x hx)
        (by rw [← evalChild_eq]; exact hc)
  · intro ht
    rw [eval_or_node e node cs fuel ht hdata hne, htoNat]
    constructor
    · intro hdef
      rw [pbg_or_loop_iff cs.length 0 (by omega)
        (by rw [List.drop_zero]; intro c hc; rw [← evalChild_eq]; exact hdef c hc)]
      simp only [List.drop_zero, evalChild_eq]
    · intro l c r' hsplit hall hc
      exact pbg_or_loop_short l 0 cs.length c r' (by omega)
        (by rw [List.drop_zero]; exact hsplit)
        (fun x hx => by rw [← evalChild_eq]; exact hall x hx)
        (by rw [← evalChild_eq]; exact hc)

/-- C1 (witness): applying the theorem to the AND node of
`(&,TRUE,FALSE)` — the first false child is child 2 (FALSE), so the node
evaluates to 0. -/
theorem C1_and_or_semantics_witness :
    pbg_evaluate_r ⟨[⟨.PBG_OP_AND, 2, .children [1, 2]⟩, ⟨.PBG_LT_TRUE, 0, .null⟩,
      ⟨.PBG_LT_FALSE, 0, .null⟩], []⟩ (1 + 1) ⟨.PBG_OP_AND, 2, .children [1, 2]⟩ = some 0 := by
  have h := C1_and_or_semantics
    ⟨[⟨.PBG_OP_AND, 2, .children [1, 2]⟩, ⟨.PBG_LT_TRUE, 0, .null⟩,
      ⟨.PBG_LT_FALSE, 0, .null⟩], []⟩
    ⟨.PBG_OP_AND, 2, .children [1, 2]⟩ [1, 2] 1 rfl rfl (by decide)
  exact (h.1 rfl).2 [1] 2 [] rfl (by decide) (by decide)

/-! ### EQ (claim C2) -/

/-- Well-formed literal node as produced by the parser (or by a
well-behaved dictionary): the payload shape, the `_int` byte length and
the C `int` value ranges match the node's kind. -/
def lit_payload_wf (nd : pbg_expr_node) : Prop :=
  match nd._type with
  | .PBG_LT_TRUE | .PBG_LT_FALSE | .PBG_UNKNOWN => nd._data = .null ∧ nd._int = 0
  | .PBG_LT_NUMBER => ∃ bs, nd._data = .bytes bs ∧ bs.length = 8 ∧ nd._int = 8
  | .PBG_LT_STRING | .PBG_LT_KEY =>
    ∃ bs, nd._data = .bytes bs ∧ nd._int = (bs.length : Int)
  | .PBG_LT_DATE =>
    ∃ y m d, nd._data = .date y m d ∧ nd._int = 12 ∧
      0 ≤ y ∧ y < 2 ^ 31 ∧ 0 ≤ m ∧ m < 2 ^ 31 ∧ 0 ≤ d ∧ d < 2 ^ 31
  | _ => False

lemma leBytes_length (k v : Nat) : (leBytes k v).length = k := by
  induction k generalizing v with
  | zero => rfl
  | succ k ih => simp [leBytes, ih]

lemma leBytes4_inj {a b : Nat} (ha : a < 2 ^ 32) (hb : b < 2 ^ 32)
    (h : leBytes 4 a = leBytes 4 b) : a = b := by
  simp only [leBytes, List.cons.injEq, and_true] at h
  omega

lemma intBytesLE4_inj {y y' : Int} (hy0 : 0 ≤ y) (hy1 : y < 2 ^ 31)
    (hz0 : 0 ≤ y') (hz1 : y' < 2 ^ 31)
    (h : intBytesLE4 y = intBytesLE4 y') : y = y' := by
  unfold intBytesLE4 at h
  have h1 : y % 4294967296 = y := Int.emod_eq_of_lt hy0 (by omega)
  have h2 : y' % 4294967296 = y' := Int.emod_eq_of_lt hz0 (by omega)
  rw [h1, h2] at h
  have := leBytes4_inj (a := y.toNat) (b := y'.toNat) (by omega) (by omega) h
  omega

lemma intBytesLE4_length (y : Int) : (intBytesLE4 y).length = 4 := by
  unfold intBytesLE4; exact leBytes_length 4 _

/-- Under well-formedness and matching `_type`/`_int`, the EQ byte loop
(`pbg_eq_bytes`) decides exactly payload equality. -/
lemma pbg_eq_bytes_wf {nd0 ndi : pbg_expr_node}
    (h0 : lit_payload_wf nd0) (hi : lit_payload_wf ndi)
    (ht : ndi._type = nd0._type) (hn : ndi._int = nd0._int) :
    pbg_eq_bytes nd0._data ndi._data nd0._int =
      some (decide (nd0._data = ndi._data)) := by
  unfold lit_payload_wf at h0 hi
  rw [ht] at hi
  cases hh : nd0._type <;> simp only [hh] at h0 hi
  case PBG_LT_TRUE | PBG_LT_FALSE | PBG_UNKNOWN =>
    obtain ⟨hd0, hi0⟩ := h0
    obtain ⟨hdi, hii⟩ := hi
    rw [hd0, hdi, hi0]
    simp [pbg_eq_bytes]
  case PBG_LT_NUMBER =>
    obtain ⟨bs0, hd0, hl0, hi0⟩ := h0
    obtain ⟨bsi, hdi, hli, hii⟩ := hi
    rw [hd0, hdi, hi0]
    simp only [pbg_eq_bytes, pbg_data_bytes, optBind_some]
    rw [if_neg (by omega : ¬ (8 : Int) ≤ 0)]
    rw [if_pos (by simp [hl0, hli])]
    rw [List.take_of_length_le (by simp [hl0]), List.take_of_length_le (by simp [hli])]
    simp
  case PBG_LT_STRING | PBG_LT_KEY =>
    obtain ⟨bs0, hd0, hi0⟩ := h0
    obtain ⟨bsi, hdi, hii⟩ := hi
    have hlen : bsi.length = bs0.length := by omega
    rw [hd0, hdi, hi0]
    by_cases hL : bs0.length = 0
    · have hbs0 : bs0 = [] := List.eq_nil_of_length_eq_zero hL
      have hbsi : bsi = [] := List.eq_nil_of_length_eq_zero (by omega)
      rw [hbs0, hbsi]
      simp [pbg_eq_bytes]
    · simp only [pbg_eq_bytes, pbg_data_bytes, optBind_some]
      rw [if_neg (by omega : ¬ ((bs0.length : Int)) ≤ 0)]
      rw [if_pos (by constructor <;> simp <;> omega)]
      rw [List.take_of_length_le (by simp), List.take_of_length_le (by simp [hlen])]
      simp
  case PBG_LT_DATE =>
    obtain ⟨y0, m0, d0, hd0, hi0, hy0, hy1, hm0, hm1, hdd0, hdd1⟩ := h0
    obtain ⟨yi, mi, di, hdi, hii, hyi0, hyi1, hmi0, hmi1, hdi0, hdi1⟩ := hi
    rw [hd0, hdi, hi0]
    simp only [pbg_eq_bytes, pbg_data_bytes, optBind_some]
    rw [if_neg (by omega : ¬ (12 : Int) ≤ 0)]
    have hlen0 : (intBytesLE4 y0 ++ intBytesLE4 m0 ++ intBytesLE4 d0).length = 12 := by
      simp [intBytesLE4_length]
    have hleni : (intBytesLE4 yi ++ intBytesLE4 mi ++ intBytesLE4 di).length = 12 := by
      simp [intBytesLE4_length]
    rw [if_pos (by rw [hlen0, hleni]; simp)]
    rw [List.take_of_length_le (by rw [hlen0]; simp),
      List.take_of_length_le (by rw [hleni]; simp)]
    congr 1
    rw [decide_eq_decide]
    constructor
    · intro heq
      have hsplit1 := List.append_inj heq (by simp [intBytesLE4_length])
      have hsplit2 := List.append_inj hsplit1.1 (by simp [intBytesLE4_length])
      have hy := intBytesLE4_inj hy0 hy1 hyi0 hyi1 hsplit2.1
      have hm := intBytesLE4_inj hm0 hm1 hmi0 hmi1 hsplit2.2
      have hd := intBytesLE4_inj hdd0 hdd1 hdi0 hdi1 hsplit1.2
      rw [hy, hm, hd]
    · intro heq
      obtain ⟨hy, hm, hd⟩ := pbg_data.date.inj heq
      rw [hy, hm, hd]
  all_goals exact h0.elim

lemma pbg_eq_loop_iff (e : pbg_expr) (nd0 : pbg_expr_node)
    (hwf0 : lit_payload_wf nd0) {cs : List Int} :
    ∀ (rem i : Nat), i + rem = cs.length →
    (∀ c ∈ cs.drop i, ∃ nd, get_expr_node e c = some nd ∧ lit_payload_wf nd) →
    (pbg_eq_loop e (some nd0) cs i rem = some 1 ↔
      ∀ c ∈ cs.drop i, ∃ nd, get_expr_node e c = some nd ∧
        nd._type = nd0._type ∧ nd._int = nd0._int ∧ nd._data = nd0._data) := by
  intro rem
  induction rem with
  | zero =>
    intro i h hres
    have hnil : cs.drop i = [] := List.drop_eq_nil_of_le (by omega)
    rw [hnil]
    simp [pbg_eq_loop]
  | succ rem ih =>
    intro i h hres
    have hi : i < cs.length := by omega
    have hget := List.get?_eq_get hi
    have hdrop : cs.drop i = cs.get ⟨i, hi⟩ :: cs.drop (i + 1) :=
      List.drop_eq_get_cons hi
    simp only [List.get_eq_getElem] at hget hdrop
    have hmem : cs[i] ∈ cs.drop i := by rw [hdrop]; exact List.mem_cons_self _ _
    obtain ⟨ndi, hg, hwfi⟩ := hres _ hmem
    by_cases hmis : ndi._int ≠ nd0._int ∨ ndi._type ≠ nd0._type
    · have hloop : pbg_eq_loop e (some nd0) cs i (rem + 1) = some 0 := by
        simp only [pbg_eq_loop, hget, hg, optBind_some, if_pos hmis]
      rw [hloop]
      apply iff_of_false
      · simp
      · intro hall
        obtain ⟨nd, hnd, hteq, hieq, _⟩ := hall _ hmem
        rw [hg] at hnd
        obtain rfl := Option.some.inj hnd
        rcases hmis with hmis | hmis
        · exact hmis hieq
        · exact hmis hteq
    · push_neg at hmis
      obtain ⟨hieq, hteq⟩ := hmis
      have hbytes := pbg_eq_bytes_wf hwf0 hwfi hteq hieq
      by_cases hdeq : nd0._data = ndi._data
      · have hloop : pbg_eq_loop e (some nd0) cs i (rem + 1) =
            pbg_eq_loop e (some nd0) cs (i + 1) rem := by
          simp only [pbg_eq_loop, hget, hg, optBind_some,
            if_neg (by push_neg; exact ⟨hieq, hteq⟩ :
              ¬ (ndi._int ≠ nd0._int ∨ ndi._type ≠ nd0._type)), hbytes]
          simp [hdeq]
        rw [hloop, ih (i + 1) (by omega)
          (fun c hc => hres c (by rw [hdrop]; exact List.mem_cons_of_mem _ hc))]
        constructor
        · intro hrest c hc
          rw [hdrop] at hc
          rcases List.mem_cons.mp hc with hc | hc
          · subst hc
            exact ⟨ndi, hg, hteq, hieq, hdeq.symm⟩
          · exact hrest c hc
        · intro hall c hc
          exact hall c (by rw [hdrop]; exact List.mem_cons_of_mem _ hc)
      · have hloop : pbg_eq_loop e (some nd0) cs i (rem + 1) = some 0 := by
          simp only [pbg_eq_loop, hget, hg, optBind_some,
            if_neg (by push_neg; exact ⟨hieq, hteq⟩ :
              ¬ (ndi._int ≠ nd0._int ∨ ndi._type ≠ nd0._type)), hbytes]
          simp [hdeq]
        rw [hloop]
        apply iff_of_false
        · simp
        · intro hall
          obtain ⟨nd, hnd, _, _, hdeq2⟩ := hall _ hmem
          rw [hg] at hnd
          obtain rfl := Option.some.inj hnd
          exact hdeq (hdeq2.symm)

lemma eval_eq_node (e : pbg_expr) (node : pbg_expr_node) (cs : List Int)
    (c0 : Int) (rest : List Int) (fuel : Nat)
    (ht : node._type = .PBG_OP_EQ) (hd : node._data = pbg_data.children cs)
    (hcs : cs = c0 :: rest) :
    pbg_evaluate_r e (fuel + 1) node =
      pbg_eq_loop e (get_expr_node e c0) cs 1 (node._int - 1).toNat := by
  subst hcs
  simp only [pbg_evaluate_r, pbg_eval_step, ht, hd, isLT, isOP]
  rfl

/-- C2: evaluating an EQ node with at least two children (whose child
references all resolve to well-formed literal nodes) returns true iff
every child has the same kind tag as child 0, the same payload length
(`_int`) as child 0, and a payload byte-identical to child 0's payload
(for well-formed literals byte-identity of the compared `_int` bytes is
exactly payload equality) — in particular a NUMBER and a STRING never
compare equal (their kind tags differ), and two NUMBERs compare equal
exactly when their 8 payload bytes match. -/
theorem C2_eq_semantics (e : pbg_expr) (node : pbg_expr_node) (cs : List Int)
    (c0 : Int) (rest : List Int) (nd0 : pbg_expr_node) (fuel : Nat)
    (hdata : node._data = pbg_data.children cs)
    (htype : node._type = .PBG_OP_EQ)
    (hint : node._int = (cs.length : Int))
    (hcs : cs = c0 :: rest)
    (hlen2 : 2 ≤ cs.length)
    (h0 : get_expr_node e c0 = some nd0)
    (hres : ∀ c ∈ cs, ∃ nd, get_expr_node e c = some nd ∧ lit_payload_wf nd) :
    pbg_evaluate_r e (fuel + 1) node = some 1 ↔
      ∀ c ∈ cs, ∃ nd, get_expr_node e c = some nd ∧
        nd._type = nd0._type ∧ nd._int = nd0._int ∧ nd._data = nd0._data := by
  have hwf0 : lit_payload_wf nd0 := by
    obtain ⟨nd, hnd, hwf⟩ := hres c0 (by rw [hcs]; exact List.mem_cons_self _ _)
    rw [h0] at hnd
    obtain rfl := Option.some.inj hnd
    exact hwf
  rw [eval_eq_node e node cs c0 rest fuel htype hdata hcs, h0]
  have htn : (node._int - 1).toNat = cs.length - 1 := by omega
  rw [htn]
  rw [pbg_eq_loop_iff e nd0 hwf0 (cs.length - 1) 1 (by omega)
    (fun c hc => hres c (List.drop_subset _ _ hc))]
  constructor
  · intro hrest c hc
    rw [hcs] at hc
    rcases List.mem_cons.mp hc with hc0' | hc0'
    · subst hc0'
      exact ⟨nd0, h0, rfl, rfl, rfl⟩
    · apply hrest
      rw [hcs]
      simpa using hc0'
  · intro hall c hc
    exact hall c (List.drop_subset _ _ hc)

/-- C2 (witness): on an EQ node whose two children both resolve to the
same NUMBER literal, the theorem's right-hand side holds, so evaluation
returns 1. -/
theorem C2_eq_semantics_witness :
    pbg_evaluate_r ⟨[⟨.PBG_OP_EQ, 2, .children [1, 2]⟩,
      ⟨.PBG_LT_NUMBER, 8, .bytes [7, 0, 7, 0, 7, 0, 7, 0]⟩,
      ⟨.PBG_LT_NUMBER, 8, .bytes [7, 0, 7, 0, 7, 0, 7, 0]⟩], []⟩ (0 + 1)
      ⟨.PBG_OP_EQ, 2, .children [1, 2]⟩ = some 1 := by
  have hwf : lit_payload_wf ⟨.PBG_LT_NUMBER, 8, .bytes [7, 0, 7, 0, 7, 0, 7, 0]⟩ :=
    ⟨[7, 0, 7, 0, 7, 0, 7, 0], rfl, rfl, rfl⟩
  refine (C2_eq_semantics
    ⟨[⟨.PBG_OP_EQ, 2, .children [1, 2]⟩,
      ⟨.PBG_LT_NUMBER, 8, .bytes [7, 0, 7, 0, 7, 0, 7, 0]⟩,
      ⟨.PBG_LT_NUMBER, 8, .bytes [7, 0, 7, 0, 7, 0, 7, 0]⟩], []⟩
    ⟨.PBG_OP_EQ, 2, .children [1, 2]⟩ [1, 2] 1 [2]
    ⟨.PBG_LT_NUMBER, 8, .bytes [7, 0, 7, 0, 7, 0, 7, 0]⟩ 0
    rfl rfl rfl rfl (by decide) rfl ?_).mpr ?_
  · intro c hc
    fin_cases hc
    · exact ⟨_, rfl, hwf⟩
    · exact ⟨_, rfl, hwf⟩
  · intro c hc
    fin_cases hc
    · exact ⟨_, rfl, rfl, rfl, rfl⟩
    · exact ⟨_, rfl, rfl, rfl, rfl⟩

/-! ### Eager key resolution (claim C6) -/

/-- The payload bytes handed to the dictionary callback. -/
def keyPayload (nd : pbg_expr_node) : List Nat :=
  match nd._data with
  | .bytes bs => bs
  | _ => []

/-- Running the resolution loop with a tracing dictionary: every dynamic
node's payload is passed to the callback exactly once, in arena order,
and the resolved arena is the pointwise image. -/
lemma pbg_resolve_loop_traced (d : List Nat → Int → pbg_expr_node) :
    ∀ (dyn : List pbg_expr_node) (s0 : List (List Nat × Int)),
    (∀ k ∈ dyn, ∃ bs, k._data = pbg_data.bytes bs) →
    pbg_resolve_loop (fun s kb ki => (d kb ki, s ++ [(kb, ki)])) dyn s0 =
      some (dyn.map (fun k => d (keyPayload k) k._int),
        s0 ++ dyn.map (fun k => (keyPayload k, k._int))) := by
  intro dyn
  induction dyn with
  | nil => intro s0 h; simp [pbg_resolve_loop]
  | cons k rest ih =>
    intro s0 h
    obtain ⟨bs, hbs⟩ := h k (List.mem_cons_self _ _)
    have hkp : keyPayload k = bs := by simp [keyPayload, hbs]
    simp only [pbg_resolve_loop, hbs, pbg_data_bytes, optBind_some]
    rw [ih (s0 ++ [(bs, k._int)]) (fun x hx => h x (List.mem_cons_of_mem _ hx))]
    simp [hkp, List.map_cons, List.append_assoc]

/-- C6: `pbg_evaluate` invokes the dictionary callback exactly once for
each key in the dynamic arena, in arena order, before the recursive walk
begins (the walk runs on the already-resolved arena and never touches
the dictionary), including for keys whose nodes the walk never visits.
The first conjunct states this for every expression: with a tracing
dictionary the final trace is exactly one entry per dynamic-arena key,
and the walk's result is a function of the resolved arena alone.  The
second conjunct pins the short-circuit case `(&,FALSE,[k])`: for **any**
dictionary the result is 0 (the walk stops at FALSE and never
dereferences the key) yet the trace still contains `k`. -/
theorem C6_eager_key_resolution :
    (∀ (e : pbg_expr) (d : List Nat → Int → pbg_expr_node) (fuel : Nat)
      (s0 : List (List Nat × Int)),
      (∀ k ∈ e._dynamic, ∃ bs, k._data = pbg_data.bytes bs) →
      pbg_evaluate e (fun s kb ki => (d kb ki, s ++ [(kb, ki)])) s0 fuel =
        (do
          let root ← e._static.get? 0
          let r ← pbg_evaluate_r
            { _static := e._static,
              _dynamic := e._dynamic.map (fun k => d (keyPayload k) k._int) }
            fuel root
          some (r, s0 ++ e._dynamic.map (fun k => (keyPayload k, k._int))))) ∧
    (∀ (e_sc : pbg_expr) (d : List Nat → Int → pbg_expr_node)
      (s0 : List (List Nat × Int)),
      pbg_parse (strBytes "(&,FALSE,[k])") = some e_sc →
      pbg_evaluate e_sc (fun s kb ki => (d kb ki, s ++ [(kb, ki)])) s0 2 =
        some (0, s0 ++ [([107], 1)])) := by
  constructor
  · intro e d fuel s0 h
    unfold pbg_evaluate
    rw [pbg_resolve_loop_traced d e._dynamic s0 h]
    rfl
  · intro e_sc d s0 heq
    have hp : pbg_parse (strBytes "(&,FALSE,[k])") =
        some ⟨[⟨.PBG_OP_AND, 2, .children [1, -1]⟩, ⟨.PBG_LT_FALSE, 0, .null⟩],
          [⟨.PBG_LT_KEY, 1, .bytes [107]⟩]⟩ := by decide
    rw [hp] at heq
    obtain rfl := Option.some.inj heq
    rfl

/-- C6 (witness): the first conjunct applied to the parsed
`(&,FALSE,[k])` with an UNKNOWN-returning dictionary. -/
theorem C6_eager_key_resolution_witness :
    pbg_evaluate
      (⟨[⟨.PBG_OP_AND, 2, .children [1, -1]⟩, ⟨.PBG_LT_FALSE, 0, .null⟩],
        [⟨.PBG_LT_KEY, 1, .bytes [107]⟩]⟩ : pbg_expr)
      (fun s kb ki => ((⟨.PBG_UNKNOWN, 0, .null⟩ : pbg_expr_node), s ++ [(kb, ki)]))
      [] 2 = some (0, [([107], 1)]) := by
  have h := C6_eager_key_resolution.1
    ⟨[⟨.PBG_OP_AND, 2, .children [1, -1]⟩, ⟨.PBG_LT_FALSE, 0, .null⟩],
      [⟨.PBG_LT_KEY, 1, .bytes [107]⟩]⟩
    (fun _ _ => ⟨.PBG_UNKNOWN, 0, .null⟩) 2 []
    (by intro k hk; fin_cases hk; exact ⟨[107], rfl⟩)
  rw [h]
  decide

/-! ### The root node's index (claim C5) -/

/-- The top-level `pbg_parse_r` call, entered with both arena counters at
0, creates its node at static index 0 — unless the first field is a KEY,
which goes to the dynamic arena with signed index −1 (and then no static
node is ever created, since a literal invocation does not recurse). -/
lemma pbg_parse_step_root (buf : List Nat) (arr : parse_arrays)
    (rec : parse_state → Nat → Nat → Option (parse_state × Nat × Nat × Int))
    (loopfuel : Nat) (st : parse_state) (fcur ccur : Nat)
    (r : parse_state × Nat × Nat × Int)
    (hsz : st.staticsz = 0) (hdz : st.dynamicsz = 0)
    (h : pbg_parse_step buf arr rec loopfuel st fcur ccur = some r) :
    r.2.2.2 = 0 ∨ (r.2.2.2 = -1 ∧ r.1.staticsz = 0 ∧ r.1.dynamicsz = 1) := by
  simp only [pbg_parse_step] at h
  obtain ⟨foffI, hf, h⟩ := option_bind_some h
  obtain ⟨len, hl, h⟩ := option_bind_some h
  split at h
  · exact absurd h (by simp)
  · obtain ⟨ty, hty, h⟩ := option_bind_some h
    split at h
    · -- operator
      split at h
      · exact absurd h (by simp)
      · obtain ⟨lr, hlr, h⟩ := option_bind_some h
        obtain ⟨stat2, hw, h⟩ := option_bind_some h
        obtain rfl := Option.some.inj h
        left
        simp [hsz]
    · -- literal chain
      obtain ⟨isk, hk, h⟩ := option_bind_some h
      split at h
      · -- KEY
        obtain ⟨payload, hp, h⟩ := option_bind_some h
        obtain ⟨dyn2, hw, h⟩ := option_bind_some h
        obtain rfl := Option.some.inj h
        right
        simp [hsz, hdz]
      · obtain ⟨isd, hd, h⟩ := option_bind_some h
        split at h
        · -- DATE
          obtain ⟨d, hdd, h⟩ := option_bind_some h
          obtain ⟨stat2, hw, h⟩ := option_bind_some h
          obtain rfl := Option.some.inj h
          left
          simp [hsz]
        · obtain ⟨isn, hn, h⟩ := option_bind_some h
          split at h
          · -- NUMBER
            obtain ⟨stat2, hw, h⟩ := option_bind_some h
            obtain rfl := Option.some.inj h
            left
            simp [hsz]
          · obtain ⟨iss, hs, h⟩ := option_bind_some h
            split at h
            · -- STRING
              obtain ⟨payload, hp, h⟩ := option_bind_some h
              obtain ⟨stat2, hw, h⟩ := option_bind_some h
              obtain rfl := Option.some.inj h
              left
              simp [hsz]
            · obtain ⟨ist, htt, h⟩ := option_bind_some h
              split at h
              · -- TRUE
                obtain ⟨stat2, hw, h⟩ := option_bind_some h
                obtain rfl := Option.some.inj h
                left
                simp [hsz]
              · obtain ⟨isf, hff, h⟩ := option_bind_some h
                split at h
                · -- FALSE
                  obtain ⟨stat2, hw, h⟩ := option_bind_some h
                  obtain rfl := Option.some.inj h
                  left
                  simp [hsz]
                · exact absurd h (by simp)

/-- With an empty static arena, evaluation dereferences `e->_static[0]`
out of bounds: undefined behaviour (`none`), whatever the dictionary. -/
lemma pbg_evaluate_empty_static {σ : Type} (e : pbg_expr) (h : e._static = [])
    (dict : σ → List Nat → Int → pbg_expr_node × σ) (s0 : σ) (fuel : Nat) :
    pbg_evaluate e dict s0 fuel = none := by
  unfold pbg_evaluate
  cases hq : pbg_resolve_loop dict e._dynamic s0 with
  | none => rfl
  | some q => simp [optBind_some, h]

/-- C5 (counterexample): `([k])` — an expression that is a single (bare
key) literal — parses successfully, but its root is dynamic node 0
(signed index −1), not static index 0: the static arena is empty (the
allocation `(commas+1) − keys = 0`), and evaluation, which starts at
static index 0, dereferences an empty arena (undefined behaviour), for
any dictionary. -/
theorem C5_counterexample :
    pbg_parse_full (strBytes "([k])") =
      some (⟨[], [⟨.PBG_LT_KEY, 1, .bytes [107]⟩]⟩, -1, 0, 1) ∧
    pbg_evaluate (σ := Unit) ⟨[], [⟨.PBG_LT_KEY, 1, .bytes [107]⟩]⟩
      (fun s _ _ => (⟨.PBG_LT_TRUE, 0, .null⟩, s)) () 5 = none := by
  refine ⟨by decide, by decide⟩

/-- C5 (amended): for every successfully parsed expression the root's
signed node index is 0 — static index 0 — **unless** the expression is a
single KEY literal, in which case the root is dynamic node 0 (signed
index −1), the static arena is empty, and evaluation (which begins at
static index 0) is undefined behaviour for every dictionary. -/
theorem C5_root_index (buf : List Nat) (e : pbg_expr) (root : Int)
    (ns nk : Nat) (h : pbg_parse_full buf = some (e, root, ns, nk)) :
    root = 0 ∨ (root = -1 ∧ e._static = [] ∧
      ∀ (σ : Type) (dict : σ → List Nat → Int → pbg_expr_node × σ)
        (s0 : σ) (fuel : Nat), pbg_evaluate e dict s0 fuel = none) := by
  simp only [pbg_parse_full] at h
  obtain ⟨c0, hc0, h⟩ := option_bind_some h
  obtain ⟨sst, hsst, h⟩ := option_bind_some h
  obtain ⟨r, hr, h⟩ := option_bind_some h
  obtain ⟨statics, hstat, h⟩ := option_bind_some h
  obtain ⟨dynamics, hdyn, h⟩ := option_bind_some h
  have heq := Option.some.inj h
  injection heq with he heq2
  injection heq2 with hroot heq3
  have hstep := pbg_parse_step_root _ _ _ _ _ _ _ _ rfl rfl hr
  rcases hstep with h0 | ⟨hm1, hssz, hdsz⟩
  · left
    rw [← hroot]
    exact h0
  · right
    refine ⟨by rw [← hroot]; exact hm1, ?_, ?_⟩
    · rw [← he]
      rw [hssz] at hstat
      simp only [List.take_zero, listPullSome] at hstat
      exact (Option.some.inj hstat).symm
    · intro σ dict s0 fuel
      apply pbg_evaluate_empty_static
      rw [← he]
      rw [hssz] at hstat
      simp only [List.take_zero, listPullSome] at hstat
      exact (Option.some.inj hstat).symm

/-- C5 (witness for the amended theorem): the key-rooted case `([k])`. -/
theorem C5_root_index_witness :
    (-1 : Int) = 0 ∨ ((-1 : Int) = -1 ∧
      (⟨[], [⟨.PBG_LT_KEY, 1, .bytes [107]⟩]⟩ : pbg_expr)._static = [] ∧
      ∀ (σ : Type) (dict : σ → List Nat → Int → pbg_expr_node × σ)
        (s0 : σ) (fuel : Nat),
        pbg_evaluate ⟨[], [⟨.PBG_LT_KEY, 1, .bytes [107]⟩]⟩ dict s0 fuel = none) :=
  C5_root_index (strBytes "([k])") ⟨[], [⟨.PBG_LT_KEY, 1, .bytes [107]⟩]⟩
    (-1) 0 1 (by decide)

/-! ### Well-formed inputs: token trees (claims C8 and C4)

A well-formed input per the spec §4.2 grammar is a serialized token tree:
`expr := literal | '(' op ',' expr (',' expr)* ')'`.  Trees are given a
custom mutual inductive (tree/forest) so that all functions are plain
structural recursions. -/

mutual
inductive TokTree where
  | leaf : List Nat → TokTree
  | node : List Nat → TokForest → TokTree
deriving DecidableEq, Repr

inductive TokForest where
  | nil : TokForest
  | cons : TokTree → TokForest → TokForest
deriving DecidableEq, Repr
end

mutual
/-- Serialization of a tree: the textual grammar of spec §4.2. -/
def serTree : TokTree → List Nat
  | .leaf t => t
  | .node op ch => 40 :: (op ++ serForest ch ++ [41])

/-- Children are each preceded by `,`. -/
def serForest : TokForest → List Nat
  | .nil => []
  | .cons c rest => 44 :: (serTree c ++ serForest rest)
end

mutual
/-- The textual fields of a tree, in field order. -/
def treeToks : TokTree → List (List Nat)
  | .leaf t => [t]
  | .node op ch => op :: forestToks ch

def forestToks : TokForest → List (List Nat)
  | .nil => []
  | .cons c rest => treeToks c ++ forestToks rest
end

/-- The `instring` transition of the phase-1 loops (pbg.c line 247 and
line 276): a quote toggles, except a closing quote preceded by `\`. -/
def nextIns (ins : Bool) (prev c : Nat) : Bool :=
  if (ins = false ∧ c = 39) ∨ (ins = true ∧ c = 39 ∧ prev ≠ 92) then ¬ ins else ins

/-- Final `instring` state after scanning a byte list. -/
def tokIns : List Nat → Bool → Nat → Bool
  | [], ins, _ => ins
  | c :: rest, ins, prev => tokIns rest (nextIns ins prev c) c

/-- A byte list is scan-clean when no field boundary `( ) ,` occurs at an
out-of-string position (judged, as the C loops do, by the post-toggle
`instring`). -/
def tokClean : List Nat → Bool → Nat → Bool
  | [], _, _ => true
  | c :: rest, ins, prev =>
    let ins2 := nextIns ins prev c
    (if ins2 = false then decide (¬ (c = 40 ∨ c = 41 ∨ c = 44)) else true) &&
      tokClean rest ins2 c

/-- The outcome of the recognizer cascade of `pbg_parse_r` on one field. -/
inductive FieldKind where
  | op : pbg_node_type → FieldKind
  | key | date | num | str | btrue | bfalse
deriving DecidableEq, Repr

/-- The recognizer cascade, in the parser's priority order. -/
def fieldClass (buf : List Nat) (off len : Nat) : Option FieldKind := do
  let ty ← pbg_toop buf off len
  if ty ≠ .PBG_UNKNOWN then pure (FieldKind.op ty)
  else do
    let k ← pbg_iskey buf off len
    if k then pure .key
    else do
      let d ← pbg_isdate buf off len
      if d then pure .date
      else do
        let nn ← pbg_isnumber buf off len
        if nn then pure .num
        else do
          let s ← pbg_isstring buf off len
          if s then pure .str
          else do
            let t ← pbg_istrue buf off len
            if t then pure .btrue
            else do
              let f ← pbg_isfalse buf off len
              if f then pure .bfalse
              else none

/-- A token in its canonical context: followed by a field delimiter. -/
def tokBuf (t : List Nat) : List Nat := t ++ [44]

def tokClass (t : List Nat) : Option FieldKind := fieldClass (tokBuf t) 0 t.length

/-- Well-formed literal field token. -/
def leafOK (t : List Nat) : Bool :=
  decide (t ≠ []) && tokClean t false 44 && decide (tokIns t false 44 = false) &&
  (match tokClass t with
   | some (.op _) => false
   | some _ => true
   | none => false) &&
  decide (pbg_count_loop t 44 false (0, 0, 0) =
    (0, if tokClass t = some .key then 1 else 0, 0))

/-- Well-formed operator field token. -/
def opOK (t : List Nat) : Bool :=
  (match tokClass t with
   | some (.op _) => true
   | _ => false) &&
  tokClean t false 44 && decide (tokIns t false 44 = false) &&
  decide (pbg_count_loop t 44 false (0, 0, 0) = (0, 0, 0))

mutual
/-- (fields, keys, closings) of a tree, per spec §4.2's precomputation. -/
def treeCounts : TokTree → Nat × Nat × Nat
  | .leaf t => (1, if tokClass t = some .key then 1 else 0, 0)
  | .node _ ch =>
    let r := forestCounts ch
    (1 + r.1, r.2.1, 1 + r.2.2)

def forestCounts : TokForest → Nat × Nat × Nat
  | .nil => (0, 0, 0)
  | .cons c rest =>
    let a := treeCounts c
    let b := forestCounts rest
    (a.1 + b.1, a.2.1 + b.2.1, a.2.2 + b.2.2)
end

mutual
/-- Well-formed tree: all tokens well formed, operators have ≥ 1 child. -/
def treeWF : TokTree → Bool
  | .leaf t => leafOK t
  | .node op ch => opOK op && forestWF ch && decide (ch ≠ .nil)

def forestWF : TokForest → Bool
  | .nil => true
  | .cons c rest => treeWF c && forestWF rest
end

/-! #### Counting-loop lemmas -/
/-! #### Counting-loop lemmas -/

/-- Last element of a list, with a default. -/
def lastD : List Nat → Nat → Nat
  | [], d => d
  | c :: rest, _ => lastD rest c

lemma count_step (x : Nat) (rest : List Nat) (prev : Nat) (ins : Bool) (a b c : Nat) :
    pbg_count_loop (x :: rest) prev ins (a, b, c) =
      pbg_count_loop rest x (nextIns ins prev x)
        (if nextIns ins prev x = false then
          (a + (if x = 44 then 1 else 0),
           b + (if x = 91 then 1 else 0),
           c + (if x = 41 then 1 else 0))
        else (a, b, c)) := by
  cases ins with
  | false => by_cases hc : x = 39 <;> simp [pbg_count_loop, nextIns, hc]
  | true =>
    by_cases hc : x = 39 ∧ prev ≠ 92 <;> simp [pbg_count_loop, nextIns, hc]

lemma nextIns_false_indep (p q x : Nat) : nextIns false p x = nextIns false q x := by
  by_cases hc : x = 39 <;> simp [nextIns, hc]

lemma pbg_count_loop_prev_indep (xs : List Nat) (p q : Nat) (a b c : Nat) :
    pbg_count_loop xs p false (a, b, c) = pbg_count_loop xs q false (a, b, c) := by
  cases xs with
  | nil => rfl
  | cons x rest => rw [count_step, count_step, nextIns_false_indep p q x]

lemma tokIns_prev_indep (xs : List Nat) (p q : Nat) :
    tokIns xs false p = tokIns xs false q := by
  cases xs with
  | nil => rfl
  | cons x rest =>
    simp only [tokIns]
    rw [nextIns_false_indep p q x]

lemma tokClean_prev_indep (xs : List Nat) (p q : Nat) :
    tokClean xs false p = tokClean xs false q := by
  cases xs with
  | nil => rfl
  | cons x rest =>
    simp only [tokClean]
    rw [nextIns_false_indep p q x]

lemma tokIns_append (xs ys : List Nat) :
    ∀ (ins : Bool) (prev : Nat),
    tokIns (xs ++ ys) ins prev = tokIns ys (tokIns xs ins prev) (lastD xs prev) := by
  induction xs with
  | nil => intro ins prev; rfl
  | cons x rest ih =>
    intro ins prev
    rw [List.cons_append]
    show tokIns (rest ++ ys) (nextIns ins prev x) x = _
    rw [ih]
    rfl

lemma pbg_count_loop_append (xs ys : List Nat) :
    ∀ (ins : Bool) (prev : Nat) (a b c : Nat),
    pbg_count_loop (xs ++ ys) prev ins (a, b, c) =
      pbg_count_loop ys (lastD xs prev) (tokIns xs ins prev)
        (pbg_count_loop xs prev ins (a, b, c)) := by
  induction xs with
  | nil => intro ins prev a b c; rfl
  | cons x rest ih =>
    intro ins prev a b c
    rw [List.cons_append, count_step, count_step]
    by_cases h : nextIns ins prev x = false
    · rw [if_pos h, ih]
      rfl
    · rw [if_neg h, ih]
      rfl

lemma pbg_count_loop_shift (xs : List Nat) :
    ∀ (prev : Nat) (ins : Bool) (a b c : Nat),
    pbg_count_loop xs prev ins (a, b, c) =
      (a + (pbg_count_loop xs prev ins (0, 0, 0)).1,
       b + (pbg_count_loop xs prev ins (0, 0, 0)).2.1,
       c + (pbg_count_loop xs prev ins (0, 0, 0)).2.2) := by
  induction xs with
  | nil => intro prev ins a b c; simp [pbg_count_loop]
  | cons x rest ih =>
    intro prev ins a b c
    rw [count_step, count_step]
    by_cases h : nextIns ins prev x = false
    · rw [if_pos h, if_pos h]
      have h1 := ih x (nextIns ins prev x) (a + (if x = 44 then 1 else 0))
        (b + (if x = 91 then 1 else 0)) (c + (if x = 41 then 1 else 0))
      have h2 := ih x (nextIns ins prev x) (0 + (if x = 44 then 1 else 0))
        (0 + (if x = 91 then 1 else 0)) (0 + (if x = 41 then 1 else 0))
      rw [h1, h2]
      simp only [Prod.mk.injEq]
      omega
    · rw [if_neg h, if_neg h, ih]

lemma nextIns_of_ne39 (prev x : Nat) (hx : x ≠ 39) : nextIns false prev x = false := by
  simp [nextIns, hx]

lemma count_cons_ne39 (x : Nat) (xs : List Nat) (q a b c : Nat) (hx : x ≠ 39) :
    pbg_count_loop (x :: xs) q false (a, b, c) =
      pbg_count_loop xs x false
        (a + (if x = 44 then 1 else 0), b + (if x = 91 then 1 else 0),
         c + (if x = 41 then 1 else 0)) := by
  rw [count_step, nextIns_of_ne39 q x hx]
  simp

lemma tokIns_cons_ne39 (x : Nat) (xs : List Nat) (q : Nat) (hx : x ≠ 39) :
    tokIns (x :: xs) false q = tokIns xs false x := by
  simp only [tokIns]
  rw [nextIns_of_ne39 q x hx]

lemma count_cons40 (xs : List Nat) (q a b c : Nat) :
    pbg_count_loop (40 :: xs) q false (a, b, c) = pbg_count_loop xs 40 false (a, b, c) := by
  rw [count_cons_ne39 40 xs q a b c (by norm_num)]
  norm_num

lemma count_cons44 (xs : List Nat) (q a b c : Nat) :
    pbg_count_loop (44 :: xs) q false (a, b, c) = pbg_count_loop xs 44 false (a + 1, b, c) := by
  rw [count_cons_ne39 44 xs q a b c (by norm_num)]
  norm_num

lemma count_closing41 (q a b c : Nat) :
    pbg_count_loop [41] q false (a, b, c) = (a, b, c + 1) := by
  rw [count_cons_ne39 41 [] q a b c (by norm_num)]
  norm_num [pbg_count_loop]

lemma tokIns_one_ne39 (x q : Nat) (hx : x ≠ 39) : tokIns [x] false q = false := by
  simp only [tokIns]
  rw [nextIns_of_ne39 q x hx]

lemma treeCounts_fields_pos (T : TokTree) : 1 ≤ (treeCounts T).1 := by
  cases T <;> simp [treeCounts]

mutual
/-- Phase-1 counting of a serialized well-formed tree: commas = fields − 1,
brackets = keys, closings = operator nodes; `instring` ends `false`. -/
theorem count_serTree (T : TokTree) (h : treeWF T = true) :
    ∀ (prev a b k : Nat),
    pbg_count_loop (serTree T) prev false (a, b, k) =
      (a + ((treeCounts T).1 - 1), b + (treeCounts T).2.1, k + (treeCounts T).2.2) ∧
    tokIns (serTree T) false prev = false := by
  cases T with
  | leaf t =>
    intro prev a b k
    simp only [treeWF, leafOK, Bool.and_eq_true, decide_eq_true_eq] at h
    obtain ⟨⟨⟨⟨hne, hclean⟩, hins⟩, hmatch⟩, hcount⟩ := h
    constructor
    · simp only [serTree]
      rw [pbg_count_loop_prev_indep t prev 44, pbg_count_loop_shift, hcount]
      simp [treeCounts]
    · simp only [serTree]
      rw [tokIns_prev_indep t prev 44, hins]
  | node op ch =>
    intro prev a b k
    simp only [treeWF, Bool.and_eq_true, decide_eq_true_eq] at h
    obtain ⟨⟨hop, hch⟩, hchne⟩ := h
    simp only [opOK, Bool.and_eq_true, decide_eq_true_eq] at hop
    obtain ⟨⟨⟨hopty, hopclean⟩, hopins⟩, hopcount⟩ := hop
    have h1 : tokIns op false 40 = false := by
      rw [tokIns_prev_indep op 40 44]; exact hopins
    have h2 : pbg_count_loop op 40 false (a, b, k) = (a, b, k) := by
      rw [pbg_count_loop_prev_indep op 40 44, pbg_count_loop_shift, hopcount]
      simp
    have hf := count_serForest ch hch (lastD op 40) a b k
    constructor
    · simp only [serTree]
      rw [count_cons40, List.append_assoc, pbg_count_loop_append, h1, h2,
        pbg_count_loop_append, hf.2, hf.1, count_closing41]
      simp only [treeCounts, Prod.mk.injEq]
      exact ⟨by omega, trivial, by omega⟩
    · simp only [serTree]
      rw [tokIns_cons_ne39 40 _ prev (by norm_num), List.append_assoc,
        tokIns_append, h1, tokIns_append, hf.2,
        tokIns_one_ne39 41 _ (by norm_num)]
termination_by sizeOf T

theorem count_serForest (F : TokForest) (h : forestWF F = true) :
    ∀ (prev a b k : Nat),
    pbg_count_loop (serForest F) prev false (a, b, k) =
      (a + (forestCounts F).1, b + (forestCounts F).2.1, k + (forestCounts F).2.2) ∧
    tokIns (serForest F) false prev = false := by
  cases F with
  | nil =>
    intro prev a b k
    constructor
    · simp [serForest, forestCounts, pbg_count_loop]
    · simp [serForest, tokIns]
  | cons t rest =>
    intro prev a b k
    simp only [forestWF, Bool.and_eq_true] at h
    obtain ⟨ht, hrest⟩ := h
    have htree := count_serTree t ht 44 (a + 1) b k
    have hpos := treeCounts_fields_pos t
    have hrest2 := count_serForest rest hrest (lastD (serTree t) 44)
      (a + 1 + ((treeCounts t).1 - 1)) (b + (treeCounts t).2.1) (k + (treeCounts t).2.2)
    constructor
    · simp only [serForest]
      rw [count_cons44, pbg_count_loop_append, htree.2, htree.1, hrest2.1]
      simp only [forestCounts, Prod.mk.injEq]
      omega
    · simp only [serForest]
      rw [tokIns_cons_ne39 44 _ prev (by norm_num), tokIns_append, htree.2, hrest2.2]
termination_by sizeOf F
end

/-! #### Scan-loop lemmas -/

lemma readI_nat (buf : List Nat) (n : Nat) : readI buf ((n : Nat) : Int) = readN buf n := by
  simp [readI, readN]

lemma scan_ins2 (buf : List Nat) (i : Int) (prev c : Nat) (ins : Bool)
    (hprev : readI buf (i - 1) = some prev) :
    (if ins = false then pure (decide (c = 39))
     else if c = 39 then do
       let pv ← readI buf (i - 1)
       pure (decide (¬ (pv ≠ 92)))
     else pure true : Option Bool) = some (nextIns ins prev c) := by
  cases ins with
  | false => by_cases hc : c = 39 <;> simp [nextIns, hc]
  | true =>
    by_cases hc : c = 39
    · by_cases hp : prev = 92 <;> simp [nextIns, hc, hp, hprev]
    · simp [nextIns, hc]

